import Mathlib

/-!
Verification development for the `cloud-images-downloader` program.

The Rust sources are embedded shallowly: pure string processing becomes
functions on `List Char` (wrapped into `String` where the original API
works on `&str`), fallible code returns `Option`/`Except`, and the
network is abstracted by passing the fetched documents as arguments.
Machine integers that matter (SHA-512 words) are `Nat` with explicit
`% 2 ^ 64`.
-/

set_option maxRecDepth 10000

/-- ASCII lowercasing of one character, as Rust `char::to_ascii_lowercase`. -/
def asciiLower (c : Char) : Char :=
  if 'A' ≤ c && c ≤ 'Z' then Char.ofNat (c.toNat + 32) else c

/-- ASCII lowercasing of a character list, as Rust `str::to_ascii_lowercase`. -/
def asciiLowerList (l : List Char) : List Char :=
  l.map asciiLower

/-- ASCII lowercasing of a string. -/
def asciiLowerStr (s : String) : String :=
  String.mk (asciiLowerList s.data)

/-- Rust `str::eq_ignore_ascii_case` on character lists. -/
def eqIgnoreAsciiCase (a b : List Char) : Bool :=
  asciiLowerList a == asciiLowerList b

/-- Hexadecimal digit, either letter case (regex class `[A-Fa-f0-9]`). -/
def isHexDigitCi (c : Char) : Bool :=
  ('0' ≤ c && c ≤ '9') || ('a' ≤ c && c ≤ 'f') || ('A' ≤ c && c ≤ 'F')

/-- Lowercase hexadecimal digit (`[0-9a-f]`), used to state the Checksum
invariant from the specification. -/
def isLowerHexDigit (c : Char) : Bool :=
  ('0' ≤ c && c ≤ '9') || ('a' ≤ c && c ≤ 'f')

/-- Alphanumeric lowercase-or-digit class `[a-z0-9]` under the regex
case-insensitive flag `(?i)`, i.e. letters of either case plus digits. -/
def isAlnumCi (c : Char) : Bool :=
  ('0' ≤ c && c ≤ '9') || ('a' ≤ c && c ≤ 'z') || ('A' ≤ c && c ≤ 'Z')

/-- Rust `str::trim` (on the whitespace characters Lean knows about). -/
def trimChars (l : List Char) : List Char :=
  ((l.dropWhile Char.isWhitespace).reverse.dropWhile Char.isWhitespace).reverse

/-- String wrapper for `trimChars`. -/
def trimStr (s : String) : String :=
  String.mk (trimChars s.data)

/-- Whether `pat` occurs as a contiguous sublist of `l` (Rust `str::contains`). -/
def containsSeq (l pat : List Char) : Bool :=
  decide (pat <:+: l)

/-- Whether `l` ends with `pat` (Rust `str::ends_with`). -/
def endsWithSeq (l pat : List Char) : Bool :=
  decide (pat <:+ l)

/-- Case-insensitive equality test against a literal, character by character. -/
def beginsWithLit (lit l : List Char) : Option (List Char) :=
  match lit, l with
  | [], rest => some rest
  | _ :: _, [] => none
  | x :: xs, c :: cs => if c = x then beginsWithLit xs cs else none

/-- Like `beginsWithLit` but matching the literal case-insensitively, for the
parts of the Debian line regex governed by its `(?i)` flag. -/
def beginsWithLitCi (lit l : List Char) : Option (List Char) :=
  match lit, l with
  | [], rest => some rest
  | _ :: _, [] => none
  | x :: xs, c :: cs => if asciiLower c = asciiLower x then beginsWithLitCi xs cs else none

/-- Lexicographic comparison of characters through their code points; this is
how Rust's `Ord` on `str`/`String` compares (UTF-8 byte order and code-point
order agree). -/
def compareCh (a b : Char) : Ordering :=
  compare a.toNat b.toNat

/-- Lexicographic comparison of character lists, as Rust `str::cmp`. -/
def compareList : List Char → List Char → Ordering
  | [], [] => .eq
  | [], _ :: _ => .lt
  | _ :: _, [] => .gt
  | a :: as_, b :: bs => (compareCh a b).then (compareList as_ bs)

/-- Lexicographic comparison of strings. -/
def compareStr (a b : String) : Ordering :=
  compareList a.data b.data

/-- Strict lexicographic "less than" on strings, used to state ordering
properties. -/
def strLt (a b : String) : Prop :=
  compareStr a b = .lt

instance : DecidableRel strLt := fun a b => by
  unfold strLt
  infer_instance

theorem compareCh_eq_eq {a b : Char} : compareCh a b = .eq ↔ a = b := by
  unfold compareCh
  rw [Nat.compare_eq_eq]
  constructor
  · exact fun h => Char.ext (UInt32.toNat.inj h)
  · intro h
    rw [h]

theorem compareCh_swap (a b : Char) : (compareCh a b).swap = compareCh b a := by
  unfold compareCh
  rcases Nat.lt_trichotomy a.toNat b.toNat with h | h | h
  · rw [Nat.compare_eq_lt.2 h, Nat.compare_eq_gt.2 h]
    rfl
  · rw [Nat.compare_eq_eq.2 h, Nat.compare_eq_eq.2 h.symm]
    rfl
  · rw [Nat.compare_eq_gt.2 h, Nat.compare_eq_lt.2 h]
    rfl

theorem compareCh_lt_trans {a b c : Char} (h₁ : compareCh a b = .lt)
    (h₂ : compareCh b c = .lt) : compareCh a c = .lt := by
  unfold compareCh at h₁ h₂ ⊢
  rw [Nat.compare_eq_lt] at h₁ h₂ ⊢
  exact h₁.trans h₂

theorem compareList_eq_eq : ∀ {a b : List Char}, compareList a b = .eq ↔ a = b
  | [], [] => by simp [compareList]
  | [], _ :: _ => by simp [compareList]
  | _ :: _, [] => by simp [compareList]
  | a :: as_, b :: bs => by
    simp only [compareList]
    constructor
    · intro h
      rcases hc : compareCh a b with hv | hv | hv <;> rw [hc] at h
      · simp [Ordering.then] at h
      · have hab := compareCh_eq_eq.1 hc
        have : compareList as_ bs = .eq := by simpa [Ordering.then] using h
        have := compareList_eq_eq.1 this
        rw [hab, this]
      · simp [Ordering.then] at h
    · intro h
      obtain ⟨h₁, h₂⟩ := List.cons.inj h
      rw [compareCh_eq_eq.2 h₁, compareList_eq_eq.2 h₂]
      rfl

theorem compareList_swap : ∀ (a b : List Char), (compareList a b).swap = compareList b a
  | [], [] => rfl
  | [], _ :: _ => rfl
  | _ :: _, [] => rfl
  | a :: as_, b :: bs => by
    simp only [compareList]
    rcases hc : compareCh a b with hv | hv | hv
    · have := compareCh_swap a b
      rw [hc] at this
      rw [← this]
      rfl
    · have := compareCh_swap a b
      rw [hc] at this
      rw [← this]
      simpa [Ordering.then] using compareList_swap as_ bs
    · have := compareCh_swap a b
      rw [hc] at this
      rw [← this]
      rfl

theorem compareList_lt_trans : ∀ {a b c : List Char}, compareList a b = .lt →
    compareList b c = .lt → compareList a c = .lt
  | [], b, [] => by
    intro _ h₂
    cases b <;> simp [compareList] at h₂
  | [], _, _ :: _ => fun _ _ => rfl
  | _ :: _, [], _ => by
    intro h₁
    simp [compareList] at h₁
  | a :: as_, b :: bs, [] => by
    intro _ h₂
    simp [compareList] at h₂
  | a :: as_, b :: bs, c :: cs => by
    simp only [compareList]
    intro h₁ h₂
    rcases hab : compareCh a b with hv | hv | hv <;> rw [hab] at h₁
    · rcases hbc : compareCh b c with hw | hw | hw <;> rw [hbc] at h₂
      · rw [compareCh_lt_trans hab hbc]
        rfl
      · rw [compareCh_eq_eq.1 hbc] at hab
        rw [hab]
        rfl
      · simp [Ordering.then] at h₂
    · rcases hbc : compareCh b c with hw | hw | hw <;> rw [hbc] at h₂
      · rw [compareCh_eq_eq.1 hab, hbc]
        rfl
      · rw [compareCh_eq_eq.1 hab, hbc]
        simp only [Ordering.then] at h₁ h₂ ⊢
        exact compareList_lt_trans h₁ h₂
      · simp [Ordering.then] at h₂
    · simp [Ordering.then] at h₁

theorem compareStr_eq_eq {a b : String} : compareStr a b = .eq ↔ a = b := by
  unfold compareStr
  rw [compareList_eq_eq]
  exact ⟨fun h => String.ext h, fun h => by rw [h]⟩

theorem compareStr_swap (a b : String) : (compareStr a b).swap = compareStr b a :=
  compareList_swap a.data b.data

theorem compareStr_lt_trans {a b c : String} (h₁ : compareStr a b = .lt)
    (h₂ : compareStr b c = .lt) : compareStr a c = .lt :=
  compareList_lt_trans h₁ h₂

/-! ## Normalized image model (`src/cloud/image.rs`) -/

/-- Supported checksum algorithms (`ChecksumKind` in `src/cloud/image.rs`). -/
inductive ChecksumKind where
  | sha256
  | sha512
deriving DecidableEq, Repr

/-- Checksum value coupled with its algorithm (`ImageChecksum`); the
constructor performs no validation, exactly like `ImageChecksum::new`. -/
structure ImageChecksum where
  kind : ChecksumKind
  value : String
deriving DecidableEq, Repr

/-- The Checksum invariant stated by the specification: lowercase hex digest
whose length matches the algorithm tag (64 for sha256, 128 for sha512). -/
def checksumInvariant (c : ImageChecksum) : Bool :=
  c.value.data.all isLowerHexDigit &&
    (c.value.data.length == match c.kind with | .sha256 => 64 | .sha512 => 128)

/-- Normalised representation of a cloud image (`Image` in
`src/cloud/image.rs`); `Image::new` / `Image::from_parts` copy the fields
through unchanged, so the structure literal stands for both. -/
structure Image where
  os : String
  name : String
  distro_version : String
  version : String
  arch : String
  url : String
  checksum : Option ImageChecksum
  image_type : String
deriving DecidableEq, Repr

/-! ## `rsplit_once` (Rust `str::rsplit_once`), needed by AlmaLinux parsing -/

/-- Split a character list at the last occurrence of `sep`, returning the
parts before and after it, like Rust `str::rsplit_once`. -/
def rsplitOnceChar (sep : Char) : List Char → Option (List Char × List Char)
  | [] => none
  | c :: cs =>
    match rsplitOnceChar sep cs with
    | some (a, b) => some (c :: a, b)
    | none => if c = sep then some ([], cs) else none

theorem rsplitOnceChar_eq_none_of_not_mem {sep : Char} : ∀ {l : List Char},
    sep ∉ l → rsplitOnceChar sep l = none
  | [], _ => rfl
  | c :: cs, h => by
    have hc : c ≠ sep := fun hx => h (hx ▸ List.mem_cons_self c cs)
    have hcs : sep ∉ cs := fun hx => h (List.mem_cons_of_mem c hx)
    simp [rsplitOnceChar, rsplitOnceChar_eq_none_of_not_mem hcs, hc]

theorem rsplitOnceChar_not_mem_of_eq_none {sep : Char} : ∀ {l : List Char},
    rsplitOnceChar sep l = none → sep ∉ l
  | [], _ => by simp
  | c :: cs, h => by
    simp only [rsplitOnceChar] at h
    rcases hrec : rsplitOnceChar sep cs with _ | p <;> rw [hrec] at h
    · by_cases hc : c = sep
      · simp [hc] at h
      · have := rsplitOnceChar_not_mem_of_eq_none hrec
        simp [hc, this]
        intro he
        exact hc he.symm
    · simp at h

theorem rsplitOnceChar_sound {sep : Char} : ∀ {l a b : List Char},
    rsplitOnceChar sep l = some (a, b) → l = a ++ sep :: b ∧ sep ∉ b
  | [], a, b => by simp [rsplitOnceChar]
  | c :: cs, a, b => by
    intro h
    simp only [rsplitOnceChar] at h
    rcases hrec : rsplitOnceChar sep cs with _ | ⟨a', b'⟩ <;> rw [hrec] at h
    · by_cases hc : c = sep
      · subst hc
        rw [if_pos rfl] at h
        simp only [Option.some.injEq, Prod.mk.injEq] at h
        obtain ⟨ha, hb⟩ := h
        subst ha
        subst hb
        exact ⟨by simp, rsplitOnceChar_not_mem_of_eq_none hrec⟩
      · simp [hc] at h
    · simp only [Option.some.injEq, Prod.mk.injEq] at h
      obtain ⟨ha, hb⟩ := h
      obtain ⟨hdec, hmem⟩ := rsplitOnceChar_sound hrec
      subst hb
      refine ⟨?_, hmem⟩
      rw [← ha, hdec]
      rfl

theorem rsplitOnceChar_complete {sep : Char} : ∀ {a b : List Char}, sep ∉ b →
    rsplitOnceChar sep (a ++ sep :: b) = some (a, b)
  | [], b, h => by
    simp [rsplitOnceChar, rsplitOnceChar_eq_none_of_not_mem h]
  | c :: a, b, h => by
    simp [rsplitOnceChar, rsplitOnceChar_complete (a := a) h]

/-! ## AlmaLinux version splitting (`src/repositories/almalinux/mod.rs`) -/

/-- `split_version_parts` from `src/repositories/almalinux/mod.rs`: split a
filename version fragment into (distro_version, image_version). -/
def split_version_parts (version_fragment major : String) : String × String :=
  if eqIgnoreAsciiCase version_fragment.data "latest".data then
    (major, "latest")
  else
    match rsplitOnceChar '-' version_fragment.data with
    | some (pre, post) =>
      let release := trimChars pre
      let build := trimChars post
      if release ≠ [] ∧ build ≠ [] then (String.mk release, String.mk build)
      else (major, version_fragment)
    | none => (major, version_fragment)

/-- **C6**: for every version fragment `v` and major `m`,
`split_version_parts` returns `(m, "latest")` when `v` equals `"latest"`
case-insensitively; otherwise, when splitting `v` on its last hyphen yields
two non-empty trimmed halves, it returns those halves; otherwise it returns
`(m, v)`.  In particular `split_version_parts "latest" "9" = ("9", "latest")`,
`split_version_parts "9.4-20240513" "9" = ("9.4", "20240513")` and
`split_version_parts "20240513" "9" = ("9", "20240513")`. -/
theorem split_version_parts_spec (v m : String) :
    (eqIgnoreAsciiCase v.data "latest".data = true →
      split_version_parts v m = (m, "latest")) ∧
    (∀ pre post : List Char, eqIgnoreAsciiCase v.data "latest".data = false →
      v.data = pre ++ '-' :: post → '-' ∉ post →
      trimChars pre ≠ [] → trimChars post ≠ [] →
      split_version_parts v m = (String.mk (trimChars pre), String.mk (trimChars post))) ∧
    (eqIgnoreAsciiCase v.data "latest".data = false →
      (∀ pre post : List Char, v.data = pre ++ '-' :: post → '-' ∉ post →
        trimChars pre = [] ∨ trimChars post = []) →
      split_version_parts v m = (m, v)) ∧
    split_version_parts "latest" "9" = ("9", "latest") ∧
    split_version_parts "9.4-20240513" "9" = ("9.4", "20240513") ∧
    split_version_parts "20240513" "9" = ("9", "20240513") := by
  refine ⟨?_, ?_, ?_, by decide, by decide, by decide⟩
  · intro h
    simp [split_version_parts, h]
  · intro pre post hlatest hdec hmem hpre hpost
    rw [hdec] at hlatest
    rw [split_version_parts, hdec, rsplitOnceChar_complete hmem]
    simp [hlatest, hpre, hpost]
  · intro hlatest hfall
    rw [split_version_parts]
    simp only [hlatest, Bool.false_eq_true, if_false]
    rcases hr : rsplitOnceChar '-' v.data with _ | ⟨pre, post⟩
    · rfl
    · obtain ⟨hdec, hmem⟩ := rsplitOnceChar_sound hr
      rcases hfall pre post hdec hmem with h | h <;> simp [h]

/-- Witness for C6 at a concrete input. -/
theorem split_version_parts_spec_witness :
    split_version_parts "9.4-20240513" "9" = ("9.4", "20240513") := by
  have h := (split_version_parts_spec "9.4-20240513" "9").2.1 "9.4".data "20240513".data
    (by decide) (by decide) (by decide) (by decide) (by decide)
  exact h.trans (by decide)

/-! ## AlmaLinux artifact filename parsing (`src/repositories/almalinux/mod.rs`)

The filename regex is
`^AlmaLinux-(?P<major>\d+)-(?P<variant>[A-Za-z0-9-]+)-(?P<version>[A-Za-z0-9.-]+)\.(?P<arch>[A-Za-z0-9_]+)\.(?P<ext>.+)$`.
Greedy quantifiers with backtracking are embedded by enumerating the split
candidates longest-prefix-first and taking the first one that lets the rest
of the pattern match. -/

/-- Character class `[A-Za-z0-9-]` (the `variant` group). -/
def variantClass (c : Char) : Bool :=
  isAlnumCi c || c = '-'

/-- Character class `[A-Za-z0-9.-]` (the `version` group). -/
def versionClass (c : Char) : Bool :=
  isAlnumCi c || c = '.' || c = '-'

/-- Character class `[A-Za-z0-9_]` (the `arch` group). -/
def archClass (c : Char) : Bool :=
  isAlnumCi c || c = '_'

/-- All decompositions `cs = v ++ sep :: rest`, longest `v` first: the
candidate order a greedy regex quantifier explores while backtracking. -/
def splitsAtSep (sep : Char) : List Char → List (List Char × List Char)
  | [] => []
  | c :: cs =>
      (splitsAtSep sep cs).map (fun p => (c :: p.1, p.2)) ++
        (if c = sep then [([], cs)] else [])

/-- First successful alternative, in candidate order. -/
def firstSome {α β : Type} (f : α → Option β) : List α → Option β
  | [] => none
  | x :: xs => match f x with | some y => some y | none => firstSome f xs

/-- Tail of the filename regex: `\.(?P<arch>[A-Za-z0-9_]+)\.(?P<ext>.+)$`
after the version group's closing `\.` has been consumed by the caller.
`.` does not match a newline, hence the `'\n'` side condition on `ext`. -/
def almaArchExt (cs : List Char) : Option (List Char × List Char) :=
  let arch := cs.takeWhile archClass
  match cs.dropWhile archClass with
  | '.' :: ext =>
    if arch ≠ [] ∧ ext ≠ [] ∧ '\n' ∉ ext then some (arch, ext) else none
  | _ => none

/-- The `version`, `arch` and `ext` groups, with the version group's greedy
backtracking over its trailing `\.`. -/
def almaVersionArchExt (cs : List Char) : Option (List Char × List Char × List Char) :=
  firstSome
    (fun p =>
      if p.1 ≠ [] ∧ p.1.all versionClass then
        match almaArchExt p.2 with
        | some (arch, ext) => some (p.1, arch, ext)
        | none => none
      else none)
    (splitsAtSep '.' cs)

/-- The `variant` group and everything after it, with the variant group's
greedy backtracking over its trailing `-`. -/
def almaVariantRest (cs : List Char) :
    Option (List Char × List Char × List Char × List Char) :=
  firstSome
    (fun p =>
      if p.1 ≠ [] ∧ p.1.all variantClass then
        match almaVersionArchExt p.2 with
        | some (v, a, e) => some (p.1, v, a, e)
        | none => none
      else none)
    (splitsAtSep '-' cs)

/-- Raw capture groups of the AlmaLinux filename regex. -/
structure AlmaCaptures where
  major : List Char
  variant : List Char
  version : List Char
  arch : List Char
  ext : List Char
deriving DecidableEq, Repr

/-- `filename_regex().captures(filename)`: the full anchored match. -/
def filenameRegexCaptures (f : List Char) : Option AlmaCaptures :=
  match beginsWithLit "AlmaLinux-".data f with
  | none => none
  | some rest =>
    let major := rest.takeWhile Char.isDigit
    if major = [] then none
    else
      match rest.dropWhile Char.isDigit with
      | '-' :: rest3 =>
        match almaVariantRest rest3 with
        | some (variant, version, arch, ext) => some ⟨major, variant, version, arch, ext⟩
        | none => none
      | _ => none

/-- `AlmaArtifact` from `src/repositories/almalinux/mod.rs`. -/
structure AlmaArtifact where
  filename : String
  major : String
  variant : String
  distro_version : String
  image_version : String
  arch : String
  format : String
deriving DecidableEq, Repr

/-- `parse_artifact_filename` from `src/repositories/almalinux/mod.rs`; the
Rust `?` on the captures is `Option.bind`. -/
def parse_artifact_filename (filename expected_arch : String) : Option AlmaArtifact :=
  (filenameRegexCaptures filename.data).bind fun caps =>
    if ¬ (eqIgnoreAsciiCase caps.arch expected_arch.data = true) then none
    else
      let major := String.mk caps.major
      let dv_iv := split_version_parts (String.mk caps.version) major
      let format_lower := asciiLowerList caps.ext
      if containsSeq format_lower "checksum".data || endsWithSeq format_lower ".sig".data then
        none
      else
        some ⟨filename, major, String.mk caps.variant, dv_iv.1, dv_iv.2,
          String.mk caps.arch, String.mk caps.ext⟩

/-- Sanity check mirroring the `parse_valid_artifact_filename` unit test in
`src/repositories/almalinux/mod.rs`. -/
theorem parse_artifact_filename_unit_test :
    parse_artifact_filename "AlmaLinux-9-GenericCloud-9.4-20240513.x86_64.qcow2" "x86_64" =
      some ⟨"AlmaLinux-9-GenericCloud-9.4-20240513.x86_64.qcow2", "9", "GenericCloud", "9.4",
        "20240513", "x86_64", "qcow2"⟩ := by
  decide

/-- **C7**: AlmaLinux artifact-filename parsing returns no artifact whenever
the filename's architecture segment differs from the expected architecture
(case-insensitively), or the extension segment contains "checksum"
(case-insensitively), or the extension segment ends in ".sig" — stated in
contrapositive form: a successful parse implies the architecture matches
case-insensitively, the lowercased extension does not contain "checksum",
and the extension does not end in ".sig". -/
theorem parse_artifact_filename_rejections (f e : String) (a : AlmaArtifact) :
    parse_artifact_filename f e = some a →
    eqIgnoreAsciiCase a.arch.data e.data = true ∧
    containsSeq (asciiLowerList a.format.data) "checksum".data = false ∧
    endsWithSeq a.format.data ".sig".data = false := by
  intro h
  rcases hc : filenameRegexCaptures f.data with _ | caps <;>
    simp only [parse_artifact_filename, hc, Option.none_bind, Option.some_bind] at h
  · exact absurd h (by simp)
  · by_cases harch : eqIgnoreAsciiCase caps.arch e.data = true
    · rw [if_neg (by simp [harch])] at h
      by_cases hfmt : (containsSeq (asciiLowerList caps.ext) "checksum".data ||
          endsWithSeq (asciiLowerList caps.ext) ".sig".data) = true
      · rw [if_pos hfmt] at h
        exact absurd h (by simp)
      · rw [if_neg hfmt] at h
        obtain rfl := Option.some.inj h
        rw [Bool.or_eq_true, not_or, Bool.not_eq_true, Bool.not_eq_true] at hfmt
        obtain ⟨hck, hsig⟩ := hfmt
        refine ⟨harch, hck, ?_⟩
        by_contra hx
        rw [Bool.not_eq_false] at hx
        have hsuf : (".sig".data : List Char) <:+ caps.ext := by
          simpa [endsWithSeq] using hx
        have hmap := List.IsSuffix.map asciiLower hsuf
        have hlit : (".sig".data).map asciiLower = ".sig".data := by decide
        rw [hlit] at hmap
        have hs : endsWithSeq (asciiLowerList caps.ext) ".sig".data = true := by
          simpa [endsWithSeq, asciiLowerList] using hmap
        rw [hs] at hsig
        exact absurd hsig (by simp)
    · rw [if_pos (by simpa using harch)] at h
      exact absurd h (by simp)

/-- Witness for C7 at the unit-test filename. -/
theorem parse_artifact_filename_rejections_witness :
    eqIgnoreAsciiCase "x86_64".data "x86_64".data = true ∧
    containsSeq (asciiLowerList "qcow2".data) "checksum".data = false ∧
    endsWithSeq "qcow2".data ".sig".data = false :=
  parse_artifact_filename_rejections
    "AlmaLinux-9-GenericCloud-9.4-20240513.x86_64.qcow2" "x86_64"
    ⟨"AlmaLinux-9-GenericCloud-9.4-20240513.x86_64.qcow2", "9", "GenericCloud", "9.4",
      "20240513", "x86_64", "qcow2"⟩ (by decide)

/-! ## AlmaLinux listing (`almalinux_list` in `src/repositories/almalinux/mod.rs`) -/

/-- Split a character list on a separator character (all pieces, including
empty ones). -/
def splitOnChar (sep : Char) : List Char → List (List Char)
  | [] => [[]]
  | c :: cs =>
    match splitOnChar sep cs with
    | [] => [[c]]
    | h :: t => if c = sep then [] :: h :: t else (c :: h) :: t

/-- Rust `str::lines`: split on `'\n'`, drop a final empty piece, and strip a
trailing `'\r'` from each line. -/
def rustLines (s : String) : List (List Char) :=
  let parts := splitOnChar '\n' s.data
  let parts :=
    match parts.reverse with
    | [] :: rest => rest.reverse
    | _ => parts
  parts.map fun l =>
    match l.reverse with
    | '\r' :: r => r.reverse
    | _ => l

/-- `checksum_line_regex()` from `src/repositories/almalinux/mod.rs`:
`^SHA256 \((?P<file>AlmaLinux-[^)]+)\) = (?P<sha>[A-Fa-f0-9]{64})$`,
returning the `file` and `sha` capture groups. -/
def checksumLineCaptures (l : List Char) : Option (List Char × List Char) :=
  (beginsWithLit "SHA256 (".data l).bind fun rest =>
    (beginsWithLit "AlmaLinux-".data rest).bind fun rest2 =>
      let inner := rest2.takeWhile (fun c => c ≠ ')')
      let after := rest2.dropWhile (fun c => c ≠ ')')
      if after.head? = some ')' ∧ inner ≠ [] then
        (beginsWithLit " = ".data after.tail).bind fun sha =>
          if sha.length = 64 ∧ sha.all isHexDigitCi then
            some ("AlmaLinux-".data ++ inner, sha)
          else none
      else none

/-- `make_image` from `src/repositories/almalinux/mod.rs`. -/
def almaMakeImage (base_url : String) (artifact : AlmaArtifact)
    (checksum : ImageChecksum) : Image :=
  { os := "almalinux"
    name := artifact.variant
    distro_version := artifact.distro_version
    version := artifact.image_version
    arch := artifact.arch
    url := String.mk (base_url.data ++ artifact.filename.data)
    checksum := some checksum
    image_type := artifact.format }

/-- One iteration of the line loop in `almalinux_list`: trim, skip empty
lines and lines that fail the checksum regex or the filename parse. -/
def almaLineImage (base arch : String) (line : List Char) : Option Image :=
  let trimmed := trimChars line
  if trimmed = [] then none
  else
    (checksumLineCaptures trimmed).bind fun fs =>
      (parse_artifact_filename (String.mk fs.1) arch).bind fun artifact =>
        some (almaMakeImage base artifact ⟨ChecksumKind.sha256, String.mk fs.2⟩)

/-- The comparator passed to `images.sort_by` in `almalinux_list`:
distro version descending, then image version descending, then name
ascending, then image type ascending. -/
def almaCmp (a b : Image) : Ordering :=
  (compareStr b.distro_version a.distro_version).then
    ((compareStr b.version a.version).then
      ((compareStr a.name b.name).then (compareStr a.image_type b.image_type)))

/-- The non-strict order induced by `almaCmp`; Rust `sort_by` sorts into
non-descending comparator order, i.e. no adjacent pair compares `Greater`. -/
def almaLe (a b : Image) : Prop :=
  almaCmp a b ≠ .gt

instance : DecidableRel almaLe := fun a b => by
  unfold almaLe
  infer_instance

/-- Pure core of `almalinux_list`: parse every line of the fetched
`CHECKSUM` body and sort the resulting images.  Rust's `sort_by` is a
stable sort; `List.insertionSort` is stable, so it computes the same list. -/
def almalinux_list (base arch : String) (checksum_body : String) : List Image :=
  List.insertionSort almaLe
    ((rustLines checksum_body).filterMap (fun l => almaLineImage base arch l))

/-- Comparator laws: compatibility with argument swap, transitivity of the
strict part, and congruence of the equivalence part. -/
def LawfulCmp {α : Type} (c : α → α → Ordering) : Prop :=
  (∀ x y, (c x y).swap = c y x) ∧
  (∀ x y z, c x y = .lt → c y z = .lt → c x z = .lt) ∧
  (∀ x y z, c x y = .eq → c y z = c x z)

theorem lawfulCmp_compareStr : LawfulCmp compareStr :=
  ⟨compareStr_swap, fun _ _ _ => compareStr_lt_trans,
    fun x y z h => by rw [compareStr_eq_eq.1 h]⟩

theorem lawfulCmp_flip {α : Type} {c : α → α → Ordering} (h : LawfulCmp c) :
    LawfulCmp (fun x y => c y x) := by
  obtain ⟨hswap, htrans, hcong⟩ := h
  refine ⟨fun x y => hswap y x, fun x y z h₁ h₂ => htrans z y x h₂ h₁, ?_⟩
  intro x y z h₁
  have h₁x : c y x = .eq := h₁
  have h₂ : c x y = .eq := by
    have := hswap y x
    rw [h₁x] at this
    simpa [Ordering.swap] using this.symm
  show c z y = c z x
  have h₃ := hcong x y z h₂
  have h₄ := hswap y z
  have h₅ := hswap x z
  rw [← h₄, ← h₅, h₃]

theorem lawfulCmp_then {α : Type} {c d : α → α → Ordering}
    (hc : LawfulCmp c) (hd : LawfulCmp d) :
    LawfulCmp (fun x y => (c x y).then (d x y)) := by
  obtain ⟨hcs, hct, hcc⟩ := hc
  obtain ⟨hds, hdt, hdc⟩ := hd
  refine ⟨?_, ?_, ?_⟩
  · intro x y
    rw [Ordering.swap_then, hcs, hds]
  · intro x y z h₁ h₂
    rw [Ordering.then_eq_lt] at h₁ h₂ ⊢
    have swap_lt : ∀ u v, c u v = .lt → c v u = .gt := by
      intro u v h
      have := hcs u v
      rw [h] at this
      simpa [Ordering.swap] using this.symm
    have swap_gt : ∀ u v, c u v = .gt → c v u = .lt := by
      intro u v h
      have := hcs u v
      rw [h] at this
      simpa [Ordering.swap] using this.symm
    rcases h₁ with h₁ | ⟨h₁e, h₁d⟩
    · rcases h₂ with h₂ | ⟨h₂e, h₂d⟩
      · exact Or.inl (hct x y z h₁ h₂)
      · left
        have : c z x = c y x := hcc y z x h₂e
        have hyx : c y x = .gt := swap_lt x y h₁
        have hzx : c z x = .gt := by rw [this, hyx]
        exact swap_gt z x hzx
    · rcases h₂ with h₂ | ⟨h₂e, h₂d⟩
      · left
        have : c y z = c x z := hcc x y z h₁e
        rw [← this, h₂]
      · right
        have hxz : c x z = .eq := by
          have := hcc x y z h₁e
          rw [← this, h₂e]
        exact ⟨hxz, hdt x y z h₁d h₂d⟩
  · intro x y z h₁
    rw [Ordering.then_eq_eq] at h₁
    obtain ⟨h₁c, h₁d⟩ := h₁
    show (c y z).then (d y z) = (c x z).then (d x z)
    rw [hcc x y z h₁c, hdc x y z h₁d]

theorem lawfulCmp_almaCmp : LawfulCmp almaCmp := by
  have h1 : LawfulCmp (fun a b : Image => compareStr b.distro_version a.distro_version) := by
    have := lawfulCmp_flip (c := fun a b : Image => compareStr a.distro_version b.distro_version)
      ⟨fun x y => compareStr_swap _ _, fun _ _ _ => compareStr_lt_trans,
        fun x y z h => by simp only [compareStr_eq_eq.1 h]⟩
    exact this
  have h2 : LawfulCmp (fun a b : Image => compareStr b.version a.version) := by
    exact lawfulCmp_flip (c := fun a b : Image => compareStr a.version b.version)
      ⟨fun x y => compareStr_swap _ _, fun _ _ _ => compareStr_lt_trans,
        fun x y z h => by simp only [compareStr_eq_eq.1 h]⟩
  have h3 : LawfulCmp (fun a b : Image => compareStr a.name b.name) :=
    ⟨fun x y => compareStr_swap _ _, fun _ _ _ => compareStr_lt_trans,
      fun x y z h => by simp only [compareStr_eq_eq.1 h]⟩
  have h4 : LawfulCmp (fun a b : Image => compareStr a.image_type b.image_type) :=
    ⟨fun x y => compareStr_swap _ _, fun _ _ _ => compareStr_lt_trans,
      fun x y z h => by simp only [compareStr_eq_eq.1 h]⟩
  exact lawfulCmp_then h1 (lawfulCmp_then h2 (lawfulCmp_then h3 h4))

theorem compareStr_self (a : String) : compareStr a a = .eq :=
  compareStr_eq_eq.2 rfl

theorem almaLe_total : ∀ a b : Image, almaLe a b ∨ almaLe b a := by
  intro a b
  by_cases h : almaCmp a b = .gt
  · right
    unfold almaLe
    have hsw := lawfulCmp_almaCmp.1 a b
    rw [h] at hsw
    intro hc
    rw [← hsw] at hc
    exact absurd hc (by simp [Ordering.swap])
  · exact Or.inl h

theorem almaLe_trans : ∀ a b c : Image, almaLe a b → almaLe b c → almaLe a c := by
  intro a b c h₁ h₂ hgt
  obtain ⟨hswap, htrans, hcong⟩ := lawfulCmp_almaCmp
  unfold almaLe at h₁ h₂
  rcases hab : almaCmp a b with _ | _ | _
  · rcases hbc : almaCmp b c with _ | _ | _
    · exact absurd hgt (by rw [htrans a b c hab hbc]; simp)
    · have hca := hcong b c a hbc
      have hba : almaCmp b a = .gt := by
        have := hswap a b
        rw [hab] at this
        simpa [Ordering.swap] using this.symm
      have hcagt : almaCmp c a = .gt := by rw [hca, hba]
      have := hswap c a
      rw [hcagt] at this
      have hac : almaCmp a c = .lt := by simpa [Ordering.swap] using this.symm
      rw [hac] at hgt
      exact absurd hgt (by simp)
    · exact h₂ hbc
  · rcases hbc : almaCmp b c with _ | _ | _
    · have := hcong a b c hab
      rw [hbc] at this
      rw [this.symm] at hgt
      exact absurd hgt (by simp)
    · have := hcong a b c hab
      rw [hbc] at this
      rw [this.symm] at hgt
      exact absurd hgt (by simp)
    · exact h₂ hbc
  · exact h₁ hab

instance : IsTotal Image almaLe := ⟨almaLe_total⟩

instance : IsTrans Image almaLe := ⟨almaLe_trans⟩

/-- The ordering the specification claims for the AlmaLinux listing, written
independently of the code's comparator: distro version descending, then
image version descending, then name ascending, then image type ascending
(lexicographically on strings, ties allowed). -/
def almaSpecOrder (a b : Image) : Prop :=
  strLt b.distro_version a.distro_version ∨
    (b.distro_version = a.distro_version ∧
      (strLt b.version a.version ∨
        (b.version = a.version ∧
          (strLt a.name b.name ∨
            (a.name = b.name ∧
              (strLt a.image_type b.image_type ∨ a.image_type = b.image_type))))))

theorem almaLe_iff_spec (a b : Image) : almaLe a b ↔ almaSpecOrder a b := by
  unfold almaLe almaCmp almaSpecOrder strLt
  rcases h1 : compareStr b.distro_version a.distro_version with _ | _ | _
  · simp [Ordering.then, h1]
  · have hdv : b.distro_version = a.distro_version := compareStr_eq_eq.1 h1
    rcases h2 : compareStr b.version a.version with _ | _ | _
    · simp [Ordering.then, h1, h2, hdv]
    · have hv : b.version = a.version := compareStr_eq_eq.1 h2
      rcases h3 : compareStr a.name b.name with _ | _ | _
      · simp [Ordering.then, h1, h2, h3, hdv, hv]
      · have hn : a.name = b.name := compareStr_eq_eq.1 h3
        rcases h4 : compareStr a.image_type b.image_type with _ | _ | _
        · simp [Ordering.then, h1, h2, h3, h4, hdv, hv, hn]
        · have ht : a.image_type = b.image_type := compareStr_eq_eq.1 h4
          simp [Ordering.then, h1, h2, h3, h4, hdv, hv, hn, ht]
        · have ht : ¬ a.image_type = b.image_type := fun he => by
            rw [he, compareStr_self] at h4
            exact absurd h4 (by simp)
          simp [Ordering.then, h1, h2, h3, h4, hdv, hv, hn, ht]
      · have hn : ¬ a.name = b.name := fun he => by
          rw [he, compareStr_self] at h3
          exact absurd h3 (by simp)
        simp [Ordering.then, h1, h2, h3, hdv, hv, hn]
    · have hv : ¬ b.version = a.version := fun he => by
        rw [he, compareStr_self] at h2
        exact absurd h2 (by simp)
      simp [Ordering.then, h1, h2, hdv, hv]
  · have hdv : ¬ b.distro_version = a.distro_version := fun he => by
      rw [he, compareStr_self] at h1
      exact absurd h1 (by simp)
    simp [Ordering.then, h1, hdv]

/-- **C8**: the list returned by the AlmaLinux listing operation is sorted by
distro version descending, then image version descending, then name
ascending, then image type ascending, and applying the same sort to the
returned list leaves it unchanged (sorting is idempotent on the output). -/
theorem almalinux_list_sorted_and_idempotent (base arch body : String) :
    (almalinux_list base arch body).Pairwise almaSpecOrder ∧
    List.insertionSort almaLe (almalinux_list base arch body) =
      almalinux_list base arch body := by
  have hs : List.Sorted almaLe (almalinux_list base arch body) := by
    unfold almalinux_list
    exact List.sorted_insertionSort almaLe _
  exact ⟨hs.imp (fun h => (almaLe_iff_spec _ _).1 h), List.Sorted.insertionSort_eq hs⟩

theorem checksumLineCaptures_sha {l file sha : List Char}
    (h : checksumLineCaptures l = some (file, sha)) :
    sha.length = 64 ∧ sha.all isHexDigitCi = true := by
  simp only [checksumLineCaptures] at h
  rcases h1 : beginsWithLit "SHA256 (".data l with _ | rest <;>
    rw [h1] at h
  · exact absurd h (by simp)
  rw [Option.some_bind] at h
  rcases h2 : beginsWithLit "AlmaLinux-".data rest with _ | rest2 <;>
    rw [h2] at h
  · exact absurd h (by simp)
  rw [Option.some_bind] at h
  by_cases h3 : (rest2.dropWhile (fun c => c ≠ ')')).head? = some ')' ∧
      rest2.takeWhile (fun c => c ≠ ')') ≠ []
  · rw [if_pos h3] at h
    rcases h4 : beginsWithLit " = ".data (rest2.dropWhile (fun c => c ≠ ')')).tail with _ | sha' <;>
      rw [h4] at h
    · exact absurd h (by simp)
    rw [Option.some_bind] at h
    by_cases h5 : sha'.length = 64 ∧ sha'.all isHexDigitCi = true
    · rw [if_pos (by exact ⟨h5.1, h5.2⟩)] at h
      obtain ⟨-, hsha⟩ := Prod.mk.inj (Option.some.inj h)
      rw [← hsha]
      exact h5
    · rw [if_neg (by simpa using h5)] at h
      exact absurd h (by simp)
  · rw [if_neg h3] at h
    exact absurd h (by simp)

theorem almaLineImage_checksum {base arch : String} {line : List Char} {img : Image}
    (h : almaLineImage base arch line = some img) :
    ∃ c, img.checksum = some c ∧ c.kind = .sha256 ∧
      c.value.data.length = 64 ∧ c.value.data.all isHexDigitCi = true := by
  simp only [almaLineImage] at h
  by_cases ht : trimChars line = []
  · rw [if_pos ht] at h
    exact absurd h (by simp)
  rw [if_neg ht] at h
  rcases hcap : checksumLineCaptures (trimChars line) with _ | ⟨file, sha⟩ <;>
    rw [hcap] at h
  · exact absurd h (by simp)
  rw [Option.some_bind] at h
  rcases hp : parse_artifact_filename (String.mk file) arch with _ | artifact <;>
    rw [hp] at h
  · exact absurd h (by simp)
  rw [Option.some_bind] at h
  obtain rfl := Option.some.inj h
  obtain ⟨hlen, hhex⟩ := checksumLineCaptures_sha hcap
  exact ⟨⟨ChecksumKind.sha256, String.mk sha⟩, rfl, rfl, hlen, hhex⟩

theorem almalinux_list_checksums {base arch body : String} {img : Image}
    (h : img ∈ almalinux_list base arch body) :
    ∃ c, img.checksum = some c ∧ c.kind = .sha256 ∧
      c.value.data.length = 64 ∧ c.value.data.all isHexDigitCi = true := by
  unfold almalinux_list at h
  rw [List.mem_insertionSort, List.mem_filterMap] at h
  obtain ⟨line, _, hl⟩ := h
  exact almaLineImage_checksum hl

/-- **C2 counterexample**: the AlmaLinux checksum-line regex accepts
uppercase hex (`[A-Fa-f0-9]{64}`) and `ImageChecksum::new` stores the digest
verbatim, so the program constructs a Checksum whose digest is not lowercase
hex, violating the specified Checksum invariant. -/
theorem checksum_invariant_counterexample :
    (almalinux_list "https://repo.almalinux.org/almalinux/9/cloud/x86_64/images/" "x86_64"
        "SHA256 (AlmaLinux-9-GenericCloud-latest.x86_64.qcow2) = AAAAAAAAAAAAAAAAAAAAAAAAAAAAAAAAAAAAAAAAAAAAAAAAAAAAAAAAAAAAAAAA").map
        (fun i => i.checksum) =
      [some ⟨ChecksumKind.sha256,
        "AAAAAAAAAAAAAAAAAAAAAAAAAAAAAAAAAAAAAAAAAAAAAAAAAAAAAAAAAAAAAAAA"⟩] ∧
    checksumInvariant ⟨ChecksumKind.sha256,
        "AAAAAAAAAAAAAAAAAAAAAAAAAAAAAAAAAAAAAAAAAAAAAAAAAAAAAAAAAAAAAAAA"⟩ = false :=
  ⟨by decide, by decide⟩

/-! ## Debian listing (`debian_list` in `src/repositories/debian/mod.rs`) -/

/-- The `x86_64` → `amd64` request normalization at the top of `debian_list`. -/
def debianWantArch (arch : String) : String :=
  if arch = "x86_64" then "amd64" else arch

/-- `valid_dir_re`: `^(?:latest|\d{8}(?:-\d{4})?)$`. -/
def isValidDebianDir (d : List Char) : Bool :=
  (d == "latest".data) ||
  (d.length == 8 && d.all Char.isDigit) ||
  (d.length == 13 && (d.take 8).all Char.isDigit && (d.getD 8 ' ' == '-') &&
    (d.drop 9).all Char.isDigit)

/-- The `seen : HashSet` insertion loop of `debian_list`, keeping the first
occurrence of each directory name. -/
def dedupKeepFirstAux : List String → List String → List String
  | _, [] => []
  | seen, x :: xs =>
    if x ∈ seen then dedupKeepFirstAux seen xs
    else x :: dedupKeepFirstAux (x :: seen) xs

def dedupKeepFirst (l : List String) : List String :=
  dedupKeepFirstAux [] l

/-- Non-strict lexicographic string order (`compare ≠ gt`), the order Rust's
`Vec::sort` on `String` establishes. -/
def strLe (a b : String) : Prop :=
  compareStr a b ≠ .gt

instance : DecidableRel strLe := fun a b => by
  unfold strLe
  infer_instance

theorem strLe_total : ∀ a b : String, strLe a b ∨ strLe b a := by
  intro a b
  by_cases h : compareStr a b = .gt
  · right
    unfold strLe
    have hsw := compareStr_swap a b
    rw [h] at hsw
    intro hc
    rw [← hsw] at hc
    exact absurd hc (by simp [Ordering.swap])
  · exact Or.inl h

theorem strLe_trans : ∀ a b c : String, strLe a b → strLe b c → strLe a c := by
  intro a b c h₁ h₂ hgt
  unfold strLe at h₁ h₂
  rcases hab : compareStr a b with _ | _ | _
  · rcases hbc : compareStr b c with _ | _ | _
    · exact absurd hgt (by rw [compareStr_lt_trans hab hbc]; simp)
    · rw [← compareStr_eq_eq.1 hbc, hab] at hgt
      exact absurd hgt (by simp)
    · exact h₂ hbc
  · rw [compareStr_eq_eq.1 hab] at hgt
    exact h₂ hgt
  · exact h₁ hab

instance : IsTotal String strLe := ⟨strLe_total⟩

instance : IsTrans String strLe := ⟨strLe_trans⟩

/-- The deduplicated valid directory names, in encounter order (the output
of the `seen`-guarded loop in `debian_list`). -/
def debianValidDirs (targets : List String) : List String :=
  dedupKeepFirst (targets.filter (fun d => isValidDebianDir d.data))

/-- The dated directories (`dated_dirs`), sorted descending: Rust sorts
ascending with the stable `Vec::sort` and reverses. -/
def debianDatedDesc (targets : List String) : List String :=
  (List.insertionSort strLe
    ((debianValidDirs targets).filter (fun d => d ≠ "latest"))).reverse

/-- Build-directory discovery in `debian_list`, operating on the anchor
targets extracted from the HTML index: keep targets matching
`valid_dir_re`, dedup keeping first occurrences, put `"latest"` first, and
append the dated directories in descending order. -/
def debianDirs (targets : List String) : List String :=
  (if (debianValidDirs targets).contains "latest" then ["latest"] else []) ++
    debianDatedDesc targets

/-- Raw capture groups of `line_re` in `debian_list`:
`(?i)^(?P<sha>(?:[a-f0-9]{64}|[a-f0-9]{128}))\s+\*?(?P<file>debian-(?P<dver>\d+)-(?P<variant>[a-z0-9]+)-(?P<arch>amd64|arm64)\.(?P<ext>qcow2|raw))$`. -/
structure DebianLineCaps where
  sha : List Char
  file : List Char
  dver : List Char
  variant : List Char
  arch : List Char
  ext : List Char
deriving DecidableEq, Repr

/-- Match one of the two arch alternatives (case-insensitively, by the `(?i)`
flag), followed by a literal `.` and one of the two extension alternatives,
anchored at the end; returns the verbatim arch and ext slices. -/
def debianTryArchExt (lit r : List Char) : Option (List Char × List Char) :=
  (beginsWithLitCi lit r).bind fun rest =>
    if rest.head? = some '.' then
      match beginsWithLitCi "qcow2".data rest.tail with
      | some [] => some (r.take lit.length, rest.tail)
      | _ =>
        match beginsWithLitCi "raw".data rest.tail with
        | some [] => some (r.take lit.length, rest.tail)
        | _ => none
    else none

def debianArchExt (r : List Char) : Option (List Char × List Char) :=
  match debianTryArchExt "amd64".data r with
  | some p => some p
  | none => debianTryArchExt "arm64".data r

/-- The `(?P<file>debian-(?P<dver>\d+)-(?P<variant>[a-z0-9]+)-(?P<arch>amd64|arm64)\.(?P<ext>qcow2|raw))$`
part of `line_re`, returning `(dver, variant, arch, ext)`. -/
def debianFileParse (r3 : List Char) :
    Option (List Char × List Char × List Char × List Char) :=
  (beginsWithLitCi "debian-".data r3).bind fun r4 =>
    let dver := r4.takeWhile Char.isDigit
    let r5 := r4.dropWhile Char.isDigit
    if dver = [] then none
    else if r5.head? = some '-' then
      let r6 := r5.tail
      let variant := r6.takeWhile isAlnumCi
      let r7 := r6.dropWhile isAlnumCi
      if variant = [] then none
      else if r7.head? = some '-' then
        (debianArchExt r7.tail).bind fun ae => some (dver, variant, ae.1, ae.2)
      else none
    else none

/-- The anchored `line_re` match on an (already trimmed) line.  Each greedy
piece is deterministic here: every quantified class excludes the character
the following literal requires, so the maximal run is the only candidate. -/
def debianLineCaptures (l : List Char) : Option DebianLineCaps :=
  let sha := l.takeWhile isHexDigitCi
  let r1 := l.dropWhile isHexDigitCi
  if sha.length = 64 ∨ sha.length = 128 then
    if r1.takeWhile Char.isWhitespace = [] then none
    else
      let r2 := r1.dropWhile Char.isWhitespace
      let r3 := if r2.head? = some '*' then r2.tail else r2
      (debianFileParse r3).bind fun q =>
        some ⟨sha, r3, q.1, q.2.1, q.2.2.1, q.2.2.2⟩
  else none

/-- `make_image` from `src/repositories/debian/mod.rs` composed with
`Image::from_parts`. -/
def debianMakeImage (codename url arch image_type version distro_version : String)
    (checksum : Option ImageChecksum) : Image :=
  { os := "debian"
    name := codename
    distro_version := distro_version
    version := version
    arch := arch
    url := url
    checksum := checksum
    image_type := image_type }

/-- One iteration of the inner line loop of `debian_list`: trim the line,
match `line_re`, drop it when the captured arch differs from the requested
one, otherwise build the normalized image (checksum tagged sha512, digest
verbatim). -/
def debianLineImage (base codename d want_arch : String) (line : List Char) : Option Image :=
  (debianLineCaptures (trimChars line)).bind fun c =>
    if String.mk c.arch ≠ want_arch then none
    else
      some (debianMakeImage codename
        (String.mk (base.data ++ d.data ++ '/' :: c.file))
        want_arch (String.mk c.variant) d (String.mk c.dver)
        (some ⟨ChecksumKind.sha512, String.mk c.sha⟩))

/-- The per-directory loop of `debian_list`: a directory whose `SHA512SUMS`
cannot be fetched (`fetch d = none`) is skipped; otherwise its lines are
parsed and aggregated. -/
def debianAggregate (fetch : String → Option String) (base codename want_arch : String)
    (dirs : List String) : List Image :=
  dirs.flatMap fun d =>
    match fetch d with
    | none => []
    | some sums => (rustLines sums).filterMap
        (fun line => debianLineImage base codename d want_arch line)

/-- Pure core of `debian_list`: the HTML index is abstracted to the list of
its anchor targets, and the per-directory manifest fetch to a function
returning the body or a failure. -/
def debian_list (fetch : String → Option String) (index_targets : List String)
    (base codename arch : String) : List Image :=
  let want_arch := debianWantArch arch
  debianAggregate fetch base codename want_arch (debianDirs index_targets)

theorem beginsWithLitCi_sound : ∀ {lit l r : List Char}, beginsWithLitCi lit l = some r →
    ∃ pre, l = pre ++ r ∧ asciiLowerList pre = asciiLowerList lit
  | [], l, r => by
    intro h
    simp only [beginsWithLitCi, Option.some.injEq] at h
    exact ⟨[], by simp [h], rfl⟩
  | x :: xs, [], r => by
    intro h
    simp [beginsWithLitCi] at h
  | x :: xs, c :: cs, r => by
    intro h
    simp only [beginsWithLitCi] at h
    by_cases hc : asciiLower c = asciiLower x
    · rw [if_pos hc] at h
      obtain ⟨pre, hdec, hlow⟩ := beginsWithLitCi_sound h
      refine ⟨c :: pre, by rw [hdec]; rfl, ?_⟩
      simp only [asciiLowerList, List.map] at hlow ⊢
      rw [hc, hlow]
    · rw [if_neg hc] at h
      exact absurd h (by simp)

theorem beginsWithLitCi_length {lit l r : List Char} (h : beginsWithLitCi lit l = some r) :
    ∃ pre, l = pre ++ r ∧ pre.length = lit.length ∧
      asciiLowerList pre = asciiLowerList lit := by
  obtain ⟨pre, hdec, hlow⟩ := beginsWithLitCi_sound h
  refine ⟨pre, hdec, ?_, hlow⟩
  have := congrArg List.length hlow
  simpa [asciiLowerList] using this

theorem head_eq_cons {l : List Char} {c : Char} (h : l.head? = some c) : l = c :: l.tail := by
  cases l <;> simp_all

theorem takeWhile_append_all {p : Char → Bool} : ∀ {d rest : List Char},
    d.all p = true → (∀ c, rest.head? = some c → p c = false) →
    (d ++ rest).takeWhile p = d ∧ (d ++ rest).dropWhile p = rest
  | [], rest, _, hr => by
    cases rest with
    | nil => simp
    | cons c cs =>
      have := hr c rfl
      simp [List.takeWhile, List.dropWhile, this]
  | d :: ds, rest, hall, hr => by
    rw [List.all_cons, Bool.and_eq_true] at hall
    obtain ⟨hd, hds⟩ := hall
    obtain ⟨h₁, h₂⟩ := takeWhile_append_all hds hr
    constructor
    · rw [List.cons_append, List.takeWhile_cons, hd]
      simp [h₁]
    · rw [List.cons_append, List.dropWhile_cons, hd]
      simpa using h₂

theorem debianArchExt_sound {r a e : List Char} (h : debianArchExt r = some (a, e)) :
    r = a ++ '.' :: e ∧
    (eqIgnoreAsciiCase a "amd64".data = true ∨ eqIgnoreAsciiCase a "arm64".data = true) ∧
    (eqIgnoreAsciiCase e "qcow2".data = true ∨ eqIgnoreAsciiCase e "raw".data = true) := by
  have tryCase : ∀ lit, debianTryArchExt lit r = some (a, e) →
      r = a ++ '.' :: e ∧ eqIgnoreAsciiCase a lit = true ∧
      (eqIgnoreAsciiCase e "qcow2".data = true ∨ eqIgnoreAsciiCase e "raw".data = true) := by
    intro lit hx
    simp only [debianTryArchExt] at hx
    rcases hlit : beginsWithLitCi lit r with _ | rest <;> rw [hlit] at hx
    · exact absurd hx (by simp)
    rw [Option.some_bind] at hx
    by_cases hdot : rest.head? = some '.'
    · rw [if_pos hdot] at hx
      obtain ⟨pre, hdec, hplen, hlow⟩ := beginsWithLitCi_length hlit
      have hapre : a = pre := by
        rcases hq : beginsWithLitCi "qcow2".data rest.tail with _ | q <;> rw [hq] at hx
        · rcases hw : beginsWithLitCi "raw".data rest.tail with _ | w <;> rw [hw] at hx
          · exact absurd hx (by simp)
          · cases w with
            | nil =>
              obtain ⟨ha, _⟩ := Prod.mk.inj (Option.some.inj hx)
              rw [← ha, hdec, ← hplen, List.take_left]
            | cons _ _ => exact absurd hx (by simp)
        · cases q with
          | nil =>
            obtain ⟨ha, _⟩ := Prod.mk.inj (Option.some.inj hx)
            rw [← ha, hdec, ← hplen, List.take_left]
          | cons _ _ =>
            rcases hw : beginsWithLitCi "raw".data rest.tail with _ | w <;> rw [hw] at hx
            · exact absurd hx (by simp)
            · cases w with
              | nil =>
                obtain ⟨ha, _⟩ := Prod.mk.inj (Option.some.inj hx)
                rw [← ha, hdec, ← hplen, List.take_left]
              | cons _ _ => exact absurd hx (by simp)
      have hepost : e = rest.tail := by
        rcases hq : beginsWithLitCi "qcow2".data rest.tail with _ | q <;> rw [hq] at hx
        · rcases hw : beginsWithLitCi "raw".data rest.tail with _ | w <;> rw [hw] at hx
          · exact absurd hx (by simp)
          · cases w with
            | nil => exact ((Prod.mk.inj (Option.some.inj hx)).2).symm
            | cons _ _ => exact absurd hx (by simp)
        · cases q with
          | nil => exact ((Prod.mk.inj (Option.some.inj hx)).2).symm
          | cons _ _ =>
            rcases hw : beginsWithLitCi "raw".data rest.tail with _ | w <;> rw [hw] at hx
            · exact absurd hx (by simp)
            · cases w with
              | nil => exact ((Prod.mk.inj (Option.some.inj hx)).2).symm
              | cons _ _ => exact absurd hx (by simp)
      have hext : eqIgnoreAsciiCase e "qcow2".data = true ∨
          eqIgnoreAsciiCase e "raw".data = true := by
        rcases hq : beginsWithLitCi "qcow2".data rest.tail with _ | q <;> rw [hq] at hx
        · rcases hw : beginsWithLitCi "raw".data rest.tail with _ | w <;> rw [hw] at hx
          · exact absurd hx (by simp)
          · cases w with
            | nil =>
              right
              obtain ⟨pre2, hd2, hl2⟩ := beginsWithLitCi_sound hw
              rw [hepost, hd2]
              simp [eqIgnoreAsciiCase, hl2]
            | cons _ _ => exact absurd hx (by simp)
        · cases q with
          | nil =>
            left
            obtain ⟨pre2, hd2, hl2⟩ := beginsWithLitCi_sound hq
            rw [hepost, hd2]
            simp [eqIgnoreAsciiCase, hl2]
          | cons _ _ =>
            rcases hw : beginsWithLitCi "raw".data rest.tail with _ | w <;> rw [hw] at hx
            · exact absurd hx (by simp)
            · cases w with
              | nil =>
                right
                obtain ⟨pre2, hd2, hl2⟩ := beginsWithLitCi_sound hw
                rw [hepost, hd2]
                simp [eqIgnoreAsciiCase, hl2]
              | cons _ _ => exact absurd hx (by simp)
      refine ⟨?_, ?_, hext⟩
      · rw [hdec, hapre, hepost]
        exact congrArg (pre ++ ·) (head_eq_cons hdot)
      · rw [hapre]
        simp [eqIgnoreAsciiCase, hlow]
    · rw [if_neg hdot] at hx
      exact absurd hx (by simp)
  unfold debianArchExt at h
  rcases h1 : debianTryArchExt "amd64".data r with _ | p <;> rw [h1] at h
  · obtain ⟨hd, hm, he⟩ := tryCase "arm64".data h
    exact ⟨hd, Or.inr hm, he⟩
  · obtain rfl := Option.some.inj h
    obtain ⟨hd, hm, he⟩ := tryCase "amd64".data h1
    exact ⟨hd, Or.inl hm, he⟩

theorem debianFileParse_sound {r3 dver variant arch ext : List Char}
    (h : debianFileParse r3 = some (dver, variant, arch, ext)) :
    (∃ pre, r3 = pre ++ (dver ++ '-' :: (variant ++ '-' :: (arch ++ '.' :: ext))) ∧
      eqIgnoreAsciiCase pre "debian-".data = true) ∧
    dver ≠ [] ∧ dver.all Char.isDigit = true ∧
    variant ≠ [] ∧ variant.all isAlnumCi = true ∧
    (eqIgnoreAsciiCase arch "amd64".data = true ∨ eqIgnoreAsciiCase arch "arm64".data = true) ∧
    (eqIgnoreAsciiCase ext "qcow2".data = true ∨ eqIgnoreAsciiCase ext "raw".data = true) := by
  simp only [debianFileParse] at h
  rcases hlit : beginsWithLitCi "debian-".data r3 with _ | r4 <;> rw [hlit] at h
  · exact absurd h (by simp)
  rw [Option.some_bind] at h
  by_cases hdver : r4.takeWhile Char.isDigit = []
  · rw [if_pos hdver] at h
    exact absurd h (by simp)
  rw [if_neg hdver] at h
  by_cases hd1 : (r4.dropWhile Char.isDigit).head? = some '-'
  swap
  · rw [if_neg hd1] at h
    exact absurd h (by simp)
  rw [if_pos hd1] at h
  by_cases hvar : (r4.dropWhile Char.isDigit).tail.takeWhile isAlnumCi = []
  · rw [if_pos hvar] at h
    exact absurd h (by simp)
  rw [if_neg hvar] at h
  by_cases hd2 : ((r4.dropWhile Char.isDigit).tail.dropWhile isAlnumCi).head? = some '-'
  swap
  · rw [if_neg hd2] at h
    exact absurd h (by simp)
  rw [if_pos hd2] at h
  rcases hae : debianArchExt ((r4.dropWhile Char.isDigit).tail.dropWhile isAlnumCi).tail
    with _ | ⟨a, e⟩ <;> rw [hae] at h
  · exact absurd h (by simp)
  rw [Option.some_bind] at h
  simp only [Option.some.injEq, Prod.mk.injEq] at h
  obtain ⟨hq1, hq2, hq3, hq4⟩ := h
  obtain ⟨pre, hpre_dec, hpre_low⟩ := beginsWithLitCi_sound hlit
  obtain ⟨hae_dec, hae_arch, hae_ext⟩ := debianArchExt_sound hae
  subst hq1
  subst hq2
  subst hq3
  subst hq4
  refine ⟨⟨pre, ?_, by simp [eqIgnoreAsciiCase, hpre_low]⟩,
    hdver, List.all_takeWhile, hvar, List.all_takeWhile, hae_arch, hae_ext⟩
  rw [hpre_dec]
  have h4 : r4 = r4.takeWhile Char.isDigit ++ r4.dropWhile Char.isDigit :=
    (List.takeWhile_append_dropWhile _ _).symm
  have h5 : r4.dropWhile Char.isDigit = '-' :: (r4.dropWhile Char.isDigit).tail :=
    head_eq_cons hd1
  have h6 : (r4.dropWhile Char.isDigit).tail =
      (r4.dropWhile Char.isDigit).tail.takeWhile isAlnumCi ++
        (r4.dropWhile Char.isDigit).tail.dropWhile isAlnumCi :=
    (List.takeWhile_append_dropWhile _ _).symm
  have h7 : (r4.dropWhile Char.isDigit).tail.dropWhile isAlnumCi =
      '-' :: ((r4.dropWhile Char.isDigit).tail.dropWhile isAlnumCi).tail :=
    head_eq_cons hd2
  conv_lhs => rw [h4, h5, h6, h7, hae_dec]

theorem debianLineCaptures_sound {l : List Char} {c : DebianLineCaps}
    (h : debianLineCaptures l = some c) :
    (∃ ws star, l = c.sha ++ (ws ++ (star ++ c.file)) ∧ ws ≠ [] ∧
      ws.all Char.isWhitespace = true ∧ (star = [] ∨ star = ['*'])) ∧
    (c.sha.length = 64 ∨ c.sha.length = 128) ∧ c.sha.all isHexDigitCi = true ∧
    (∃ pre, c.file = pre ++ (c.dver ++ '-' :: (c.variant ++ '-' :: (c.arch ++ '.' :: c.ext))) ∧
      eqIgnoreAsciiCase pre "debian-".data = true) ∧
    c.dver ≠ [] ∧ c.dver.all Char.isDigit = true ∧
    c.variant ≠ [] ∧ c.variant.all isAlnumCi = true ∧
    (eqIgnoreAsciiCase c.arch "amd64".data = true ∨
      eqIgnoreAsciiCase c.arch "arm64".data = true) ∧
    (eqIgnoreAsciiCase c.ext "qcow2".data = true ∨
      eqIgnoreAsciiCase c.ext "raw".data = true) := by
  simp only [debianLineCaptures] at h
  by_cases hlen : (l.takeWhile isHexDigitCi).length = 64 ∨ (l.takeWhile isHexDigitCi).length = 128
  swap
  · rw [if_neg hlen] at h
    exact absurd h (by simp)
  rw [if_pos hlen] at h
  by_cases hws : (l.dropWhile isHexDigitCi).takeWhile Char.isWhitespace = []
  · rw [if_pos hws] at h
    exact absurd h (by simp)
  rw [if_neg hws] at h
  have hl1 : l = l.takeWhile isHexDigitCi ++ l.dropWhile isHexDigitCi :=
    (List.takeWhile_append_dropWhile _ _).symm
  have hl2 : l.dropWhile isHexDigitCi =
      (l.dropWhile isHexDigitCi).takeWhile Char.isWhitespace ++
        (l.dropWhile isHexDigitCi).dropWhile Char.isWhitespace :=
    (List.takeWhile_append_dropWhile _ _).symm
  by_cases hstar : ((l.dropWhile isHexDigitCi).dropWhile Char.isWhitespace).head? = some '*'
  · rw [if_pos hstar] at h
    rcases hq : debianFileParse ((l.dropWhile isHexDigitCi).dropWhile Char.isWhitespace).tail
      with _ | q <;> rw [hq] at h
    · exact absurd h (by simp)
    rw [Option.some_bind] at h
    obtain rfl := (Option.some.inj h).symm
    rcases q with ⟨dver, variant, arch, ext⟩
    obtain ⟨⟨pre, hfile, hpre⟩, hdv1, hdv2, hv1, hv2, ha, he⟩ := debianFileParse_sound hq
    refine ⟨⟨(l.dropWhile isHexDigitCi).takeWhile Char.isWhitespace, ['*'], ?_, hws,
      List.all_takeWhile, Or.inr rfl⟩, hlen, List.all_takeWhile,
      ⟨pre, hfile, hpre⟩, hdv1, hdv2, hv1, hv2, ha, he⟩
    conv_lhs => rw [hl1, hl2, head_eq_cons hstar]
    dsimp only
    simp
  · rw [if_neg hstar] at h
    rcases hq : debianFileParse ((l.dropWhile isHexDigitCi).dropWhile Char.isWhitespace)
      with _ | q <;> rw [hq] at h
    · exact absurd h (by simp)
    rw [Option.some_bind] at h
    obtain rfl := (Option.some.inj h).symm
    rcases q with ⟨dver, variant, arch, ext⟩
    obtain ⟨⟨pre, hfile, hpre⟩, hdv1, hdv2, hv1, hv2, ha, he⟩ := debianFileParse_sound hq
    refine ⟨⟨(l.dropWhile isHexDigitCi).takeWhile Char.isWhitespace, [], ?_, hws,
      List.all_takeWhile, Or.inl rfl⟩, hlen, List.all_takeWhile,
      ⟨pre, hfile, hpre⟩, hdv1, hdv2, hv1, hv2, ha, he⟩
    conv_lhs => rw [hl1, hl2]
    dsimp only
    simp

/-- **C4**: for every Debian manifest line matching the grammar, the parsed
(major, variant, arch) equal the regex capture groups verbatim (the captured
filename literally decomposes into them); lines whose captured architecture
differs from the requested one are excluded; the digest's letter case (indeed
any same-length hex digest) does not affect whether the line matches; and the
request architecture `"x86_64"` is normalized to `"amd64"` while upstream
filenames are carried into the image verbatim. -/
theorem debian_manifest_line_spec :
    (∀ (l : List Char) (c : DebianLineCaps), debianLineCaptures l = some c →
      (∃ pre, c.file = pre ++ (c.dver ++ '-' :: (c.variant ++ '-' :: (c.arch ++ '.' :: c.ext))) ∧
        eqIgnoreAsciiCase pre "debian-".data = true) ∧
      c.dver.all Char.isDigit = true ∧ c.variant.all isAlnumCi = true ∧
      (eqIgnoreAsciiCase c.arch "amd64".data = true ∨
        eqIgnoreAsciiCase c.arch "arm64".data = true)) ∧
    (∀ (base codename d want : String) (line : List Char) (c : DebianLineCaps),
      debianLineCaptures (trimChars line) = some c → String.mk c.arch ≠ want →
      debianLineImage base codename d want line = none) ∧
    (∀ d₁ d₂ rest : List Char, d₁.length = d₂.length →
      d₁.all isHexDigitCi = true → d₂.all isHexDigitCi = true →
      (∀ ch, rest.head? = some ch → isHexDigitCi ch = false) →
      (debianLineCaptures (d₁ ++ rest)).isSome = (debianLineCaptures (d₂ ++ rest)).isSome) ∧
    (debianWantArch "x86_64" = "amd64" ∧ ∀ a : String, a ≠ "x86_64" → debianWantArch a = a) ∧
    (∀ (base codename d want : String) (line : List Char) (c : DebianLineCaps),
      debianLineCaptures (trimChars line) = some c → String.mk c.arch = want →
      debianLineImage base codename d want line =
        some (debianMakeImage codename (String.mk (base.data ++ d.data ++ '/' :: c.file))
          want (String.mk c.variant) d (String.mk c.dver)
          (some ⟨ChecksumKind.sha512, String.mk c.sha⟩))) := by
  refine ⟨?_, ?_, ?_, ⟨rfl, ?_⟩, ?_⟩
  · intro l c h
    obtain ⟨-, -, -, hfile, -, hdv, -, hvar, ha, -⟩ := debianLineCaptures_sound h
    exact ⟨hfile, hdv, hvar, ha⟩
  · intro base codename d want line c h hne
    simp only [debianLineImage, h, Option.some_bind]
    rw [if_pos hne]
  · intro d₁ d₂ rest hlen h1 h2 hr
    obtain ⟨ht1, hd1⟩ := takeWhile_append_all h1 hr
    obtain ⟨ht2, hd2⟩ := takeWhile_append_all h2 hr
    simp only [debianLineCaptures]
    rw [ht1, hd1, ht2, hd2, hlen]
    by_cases hc : d₂.length = 64 ∨ d₂.length = 128
    · rw [if_pos hc, if_pos hc]
      by_cases hwsc : rest.takeWhile Char.isWhitespace = []
      · rw [if_pos hwsc, if_pos hwsc]
      · rw [if_neg hwsc, if_neg hwsc]
        rcases hfp : debianFileParse
            (if (rest.dropWhile Char.isWhitespace).head? = some '*' then
              (rest.dropWhile Char.isWhitespace).tail
            else rest.dropWhile Char.isWhitespace) with _ | q <;> simp
    · rw [if_neg hc, if_neg hc]
  · intro a ha
    simp [debianWantArch, ha]
  · intro base codename d want line c h heq
    simp only [debianLineImage, h, Option.some_bind]
    rw [if_neg (by simp [heq])]

/-- Witness for C4: a concrete matching line with a non-matching requested
architecture is excluded. -/
theorem debian_manifest_line_spec_witness :
    debianLineImage "https://cloud.debian.org/images/cloud/bookworm/" "bookworm" "latest"
      "arm64"
      ("aaaaaaaaaaaaaaaaaaaaaaaaaaaaaaaaaaaaaaaaaaaaaaaaaaaaaaaaaaaaaaaa  debian-12-genericcloud-amd64.qcow2").data
      = none :=
  debian_manifest_line_spec.2.1
    "https://cloud.debian.org/images/cloud/bookworm/" "bookworm" "latest" "arm64" _
    ⟨"aaaaaaaaaaaaaaaaaaaaaaaaaaaaaaaaaaaaaaaaaaaaaaaaaaaaaaaaaaaaaaaa".data,
      "debian-12-genericcloud-amd64.qcow2".data, "12".data, "genericcloud".data,
      "amd64".data, "qcow2".data⟩
    (by decide) (by decide)

theorem mem_dedupKeepFirstAux : ∀ {seen l : List String} {x : String},
    x ∈ dedupKeepFirstAux seen l ↔ (x ∈ l ∧ x ∉ seen)
  | seen, [], x => by simp [dedupKeepFirstAux]
  | seen, y :: ys, x => by
    simp only [dedupKeepFirstAux]
    by_cases hy : y ∈ seen
    · rw [if_pos hy, mem_dedupKeepFirstAux]
      constructor
      · rintro ⟨h₁, h₂⟩
        exact ⟨List.mem_cons_of_mem _ h₁, h₂⟩
      · rintro ⟨h₁, h₂⟩
        rcases List.mem_cons.1 h₁ with rfl | h₁
        · exact absurd hy h₂
        · exact ⟨h₁, h₂⟩
    · rw [if_neg hy]
      constructor
      · intro hx
        rcases List.mem_cons.1 hx with rfl | hx
        · exact ⟨List.mem_cons_self _ _, hy⟩
        · rw [mem_dedupKeepFirstAux] at hx
          obtain ⟨h₁, h₂⟩ := hx
          refine ⟨List.mem_cons_of_mem _ h₁, fun hs => h₂ (List.mem_cons_of_mem _ hs)⟩
      · rintro ⟨h₁, h₂⟩
        rcases List.mem_cons.1 h₁ with rfl | h₁
        · exact List.mem_cons_self _ _
        · by_cases hxy : x = y
          · subst hxy
            exact List.mem_cons_self _ _
          · refine List.mem_cons_of_mem _ (mem_dedupKeepFirstAux.2 ⟨h₁, ?_⟩)
            intro hs
            rcases List.mem_cons.1 hs with h | h
            · exact hxy h
            · exact h₂ h

theorem nodup_dedupKeepFirstAux : ∀ (seen l : List String),
    (dedupKeepFirstAux seen l).Nodup
  | seen, [] => List.nodup_nil
  | seen, y :: ys => by
    simp only [dedupKeepFirstAux]
    by_cases hy : y ∈ seen
    · rw [if_pos hy]
      exact nodup_dedupKeepFirstAux seen ys
    · rw [if_neg hy]
      refine List.nodup_cons.2 ⟨?_, nodup_dedupKeepFirstAux (y :: seen) ys⟩
      intro hmem
      exact (mem_dedupKeepFirstAux.1 hmem).2 (List.mem_cons_self _ _)

theorem mem_dedupKeepFirst {l : List String} {x : String} :
    x ∈ dedupKeepFirst l ↔ x ∈ l := by
  unfold dedupKeepFirst
  rw [mem_dedupKeepFirstAux]
  simp

theorem debianAggregate_skip (fetch : String → Option String) (base codename want : String) :
    ∀ dirs : List String, debianAggregate fetch base codename want dirs =
      debianAggregate fetch base codename want (dirs.filter (fun d => (fetch d).isSome))
  | [] => rfl
  | d :: ds => by
    simp only [debianAggregate, List.flatMap_cons, List.filter_cons]
    rcases hf : fetch d with _ | sums
    · simp only [hf, Option.isSome_none, Bool.false_eq_true, if_false, List.nil_append]
      exact debianAggregate_skip fetch base codename want ds
    · simp only [hf, Option.isSome_some, if_true, List.flatMap_cons]
      exact congrArg
        (fun t => List.filterMap (fun line => debianLineImage base codename d want line)
          (rustLines sums) ++ t)
        (debianAggregate_skip fetch base codename want ds)

theorem mem_debianValidDirs {targets : List String} {d : String} :
    d ∈ debianValidDirs targets ↔ (d ∈ targets ∧ isValidDebianDir d.data = true) := by
  unfold debianValidDirs
  rw [mem_dedupKeepFirst, List.mem_filter]

theorem nodup_debianValidDirs (targets : List String) : (debianValidDirs targets).Nodup :=
  nodup_dedupKeepFirstAux [] _

theorem mem_debianDatedDesc {targets : List String} {d : String} :
    d ∈ debianDatedDesc targets ↔
      (d ∈ targets ∧ isValidDebianDir d.data = true ∧ d ≠ "latest") := by
  unfold debianDatedDesc
  rw [List.mem_reverse, List.mem_insertionSort, List.mem_filter, mem_debianValidDirs]
  constructor
  · rintro ⟨⟨h₁, h₂⟩, h₃⟩
    exact ⟨h₁, h₂, by simpa using h₃⟩
  · rintro ⟨h₁, h₂, h₃⟩
    exact ⟨⟨h₁, h₂⟩, by simpa using h₃⟩

theorem nodup_debianDatedDesc (targets : List String) : (debianDatedDesc targets).Nodup := by
  unfold debianDatedDesc
  rw [List.nodup_reverse]
  exact (List.perm_insertionSort _ _).nodup_iff.2 ((nodup_debianValidDirs targets).filter _)

theorem pairwise_debianDatedDesc (targets : List String) :
    (debianDatedDesc targets).Pairwise (fun a b => strLt b a) := by
  unfold debianDatedDesc
  rw [List.pairwise_reverse]
  have hsort : List.Sorted strLe
      (List.insertionSort strLe
        ((debianValidDirs targets).filter (fun d => d ≠ "latest"))) :=
    List.sorted_insertionSort strLe _
  have hnodup : (List.insertionSort strLe
      ((debianValidDirs targets).filter (fun d => d ≠ "latest"))).Nodup :=
    (List.perm_insertionSort _ _).nodup_iff.2 ((nodup_debianValidDirs targets).filter _)
  refine (hsort.and hnodup).imp ?_
  rintro a b ⟨hle, hne⟩
  unfold strLe at hle
  unfold strLt
  rcases hc : compareStr a b with _ | _ | _
  · rfl
  · exact absurd (compareStr_eq_eq.1 hc) hne
  · exact absurd hc hle

theorem latest_mem_debianValidDirs {targets : List String} :
    (debianValidDirs targets).contains "latest" = true ↔ ("latest" : String) ∈ targets := by
  have h1 : (debianValidDirs targets).contains "latest" = true ↔
      ("latest" : String) ∈ debianValidDirs targets := by simp
  rw [h1, mem_debianValidDirs]
  constructor
  · exact fun h => h.1
  · exact fun h => ⟨h, by decide⟩

/-- **C5**: Debian build-directory discovery keeps exactly the anchor targets
equal to `"latest"` or to an 8-digit date optionally followed by `"-"` and a
4-digit time, deduplicated, ordered with `"latest"` first and the dated
directories descending; and a directory whose manifest cannot be fetched is
skipped, contributing no candidates, without failing the listing. -/
theorem debian_dirs_spec (targets : List String) :
    (∀ d, d ∈ debianDirs targets ↔ (d ∈ targets ∧ isValidDebianDir d.data = true)) ∧
    (debianDirs targets).Nodup ∧
    (∃ dated, debianDirs targets =
        (if ("latest" : String) ∈ targets then ["latest"] else []) ++ dated ∧
      dated.Pairwise (fun a b => strLt b a) ∧ ("latest" : String) ∉ dated) ∧
    (∀ (fetch : String → Option String) (base codename want : String) (dirs : List String),
      debianAggregate fetch base codename want dirs =
        debianAggregate fetch base codename want
          (dirs.filter (fun d => (fetch d).isSome))) := by
  have hlat_notin : ("latest" : String) ∉ debianDatedDesc targets := by
    intro h
    exact absurd (mem_debianDatedDesc.1 h).2.2 (by simp)
  refine ⟨?_, ?_, ?_, fun fetch base codename want dirs =>
    debianAggregate_skip fetch base codename want dirs⟩
  · intro d
    unfold debianDirs
    rw [List.mem_append]
    by_cases hl : (debianValidDirs targets).contains "latest" = true
    · rw [if_pos hl]
      constructor
      · rintro (h | h)
        · obtain rfl : d = "latest" := by simpa using h
          exact ⟨latest_mem_debianValidDirs.1 hl, by decide⟩
        · obtain ⟨h₁, h₂, _⟩ := mem_debianDatedDesc.1 h
          exact ⟨h₁, h₂⟩
      · rintro ⟨h₁, h₂⟩
        by_cases hd : d = "latest"
        · subst hd
          exact Or.inl (by simp)
        · exact Or.inr (mem_debianDatedDesc.2 ⟨h₁, h₂, hd⟩)
    · rw [if_neg hl]
      constructor
      · rintro (h | h)
        · simp at h
        · obtain ⟨h₁, h₂, _⟩ := mem_debianDatedDesc.1 h
          exact ⟨h₁, h₂⟩
      · rintro ⟨h₁, h₂⟩
        by_cases hd : d = "latest"
        · subst hd
          exact absurd (latest_mem_debianValidDirs.2 h₁) hl
        · exact Or.inr (mem_debianDatedDesc.2 ⟨h₁, h₂, hd⟩)
  · unfold debianDirs
    by_cases hl : (debianValidDirs targets).contains "latest" = true
    · rw [if_pos hl]
      exact List.nodup_cons.2 ⟨hlat_notin, nodup_debianDatedDesc targets⟩
    · rw [if_neg hl]
      simpa using nodup_debianDatedDesc targets
  · refine ⟨debianDatedDesc targets, ?_, pairwise_debianDatedDesc targets, hlat_notin⟩
    unfold debianDirs
    by_cases hl : (debianValidDirs targets).contains "latest" = true
    · rw [if_pos hl, if_pos (latest_mem_debianValidDirs.1 hl)]
    · rw [if_neg hl, if_neg (fun hm => hl (latest_mem_debianValidDirs.2 hm))]

/-- Witness for C5 on a synthetic index (the spec's end-to-end shape). -/
theorem debian_dirs_spec_witness :
    (("20240101-1200" : String) ∈ debianDirs ["latest", "20240101-1200", "junk"] ↔
      (("20240101-1200" : String) ∈ (["latest", "20240101-1200", "junk"] : List String) ∧
        isValidDebianDir "20240101-1200".data = true)) ∧
    ("junk" : String) ∉ debianDirs ["latest", "20240101-1200", "junk"] := by
  have h := debian_dirs_spec ["latest", "20240101-1200", "junk"]
  refine ⟨h.1 "20240101-1200", ?_⟩
  intro hm
  have := (h.1 "junk").1 hm
  exact absurd this.2 (by decide)

theorem debianLineImage_checksum {base codename d want : String} {line : List Char} {img : Image}
    (h : debianLineImage base codename d want line = some img) :
    ∃ c, img.checksum = some c ∧ c.kind = ChecksumKind.sha512 ∧
      (c.value.data.length = 64 ∨ c.value.data.length = 128) ∧
      c.value.data.all isHexDigitCi = true := by
  simp only [debianLineImage] at h
  rcases hc : debianLineCaptures (trimChars line) with _ | caps <;> rw [hc] at h
  · exact absurd h (by simp)
  rw [Option.some_bind] at h
  by_cases hne : String.mk caps.arch ≠ want
  · rw [if_pos hne] at h
    exact absurd h (by simp)
  · rw [if_neg hne] at h
    obtain rfl := Option.some.inj h
    obtain ⟨-, hlen, hhex, -, -, -, -, -, -, -⟩ := debianLineCaptures_sound hc
    exact ⟨⟨ChecksumKind.sha512, String.mk caps.sha⟩, rfl, rfl, hlen, hhex⟩

/-- **C2 (amended)**: checksums are constructed with digests taken verbatim
from upstream with no lowercasing and no length-to-algorithm check: the
AlmaLinux parser produces digests of exactly 64 hex characters of either
case tagged sha256, and the Debian parser produces digests of 64 or 128 hex
characters of either case always tagged sha512. -/
theorem constructed_checksums_shape :
    (∀ (base arch body : String) (img : Image), img ∈ almalinux_list base arch body →
      ∃ c, img.checksum = some c ∧ c.kind = ChecksumKind.sha256 ∧
        c.value.data.length = 64 ∧ c.value.data.all isHexDigitCi = true) ∧
    (∀ (base codename d want : String) (line : List Char) (img : Image),
      debianLineImage base codename d want line = some img →
      ∃ c, img.checksum = some c ∧ c.kind = ChecksumKind.sha512 ∧
        (c.value.data.length = 64 ∨ c.value.data.length = 128) ∧
        c.value.data.all isHexDigitCi = true) :=
  ⟨fun _ _ _ _ h => almalinux_list_checksums h,
   fun _ _ _ _ _ _ h => debianLineImage_checksum h⟩

/-- Witness for C2's amended statement at a concrete Debian line. -/
theorem constructed_checksums_shape_witness :
    ∃ c, (debianMakeImage "bookworm"
        (String.mk ("https://x/".data ++ "latest".data ++
          '/' :: "debian-12-genericcloud-amd64.qcow2".data))
        "amd64" "genericcloud" "latest" "12"
        (some ⟨ChecksumKind.sha512,
          "aaaaaaaaaaaaaaaaaaaaaaaaaaaaaaaaaaaaaaaaaaaaaaaaaaaaaaaaaaaaaaaa"⟩)).checksum =
        some c ∧ c.kind = ChecksumKind.sha512 ∧
      (c.value.data.length = 64 ∨ c.value.data.length = 128) ∧
      c.value.data.all isHexDigitCi = true :=
  constructed_checksums_shape.2 "https://x/" "bookworm" "latest" "amd64"
    ("aaaaaaaaaaaaaaaaaaaaaaaaaaaaaaaaaaaaaaaaaaaaaaaaaaaaaaaaaaaaaaaa  debian-12-genericcloud-amd64.qcow2").data
    _ (by decide)

/-! ## Ubuntu catalog model and flattening (`src/cloud/*`, `src/repositories/ubuntu/mod.rs`)

The Rust structs are `Item`, `Version`, `Product`, `Catalog`; the names are
prefixed here to avoid clashing with the library.  Rust's `HashMap` is
modeled as an association list; the claims below only count entries and map
over them, so iteration order is immaterial. -/

/-- `Item` from `src/cloud/item.rs`. -/
structure UbuntuItem where
  path : Option String
  sha256 : Option String
  ftype : Option String
deriving DecidableEq, Repr

/-- `Version` from `src/cloud/version.rs`: items keyed by alias. -/
structure UbuntuVersion where
  items : List (String × UbuntuItem)
deriving DecidableEq, Repr

/-- `Product` from `src/cloud/product.rs`. -/
structure UbuntuProduct where
  arch : Option String
  os : Option String
  release : Option String
  release_codename : Option String
  distro_version : Option String
  versions : List (String × UbuntuVersion)
deriving DecidableEq, Repr

/-- `Catalog` from `src/cloud/catalog.rs`: products keyed by product name. -/
structure UbuntuCatalog where
  products : List (String × UbuntuProduct)
deriving DecidableEq, Repr

/-- Models `Url::parse(base_url).and_then(|base| base.join(relative_path))`
with the fallback to naive concatenation in `Image::from_metadata`.  The
exact RFC join semantics are abstracted (no claim depends on them): an
absolute `rel` wins, a base without a scheme separator falls back to
concatenation, otherwise `rel` replaces the base's last path segment. -/
def joinUrl (base rel : String) : String :=
  if containsSeq rel.data "://".data then rel
  else if ¬ (containsSeq base.data "://".data) then String.mk (base.data ++ rel.data)
  else
    match rsplitOnceChar '/' base.data with
    | some (pre, _) => String.mk (pre ++ '/' :: rel.data)
    | none => String.mk (base.data ++ rel.data)

/-- `Image::from_metadata` from `src/cloud/image.rs`. -/
def ubuntuFromMetadata (os_name release_name distro_version version architecture : String)
    (base_url relative_path : String) (sha256 : Option String) (image_type : String) : Image :=
  { os := os_name
    name := release_name
    distro_version := distro_version
    version := version
    arch := architecture
    url := joinUrl base_url relative_path
    checksum := sha256.map (fun v => ⟨ChecksumKind.sha256, v⟩)
    image_type := image_type }

/-- The trailing colon-delimited segment of a product key
(`product_name.rsplit(':').next()`; the whole key when it has no colon). -/
def lastColonSegment (name : List Char) : List Char :=
  match rsplitOnceChar ':' name with
  | some (_, post) => post
  | none => name

/-- Architecture resolution in `ubuntu_list`: prefer the explicit
`Product.arch`; else infer from the trailing colon-delimited segment of the
product key when it is a known architecture token; else drop the product. -/
def ubuntuResolvedArch (product_name : String) (p : UbuntuProduct) : Option String :=
  match p.arch with
  | some a => some a
  | none =>
    let tail := lastColonSegment product_name.data
    if tail = "amd64".data ∨ tail = "arm64".data ∨ tail = "ppc64el".data ∨ tail = "s390x".data
    then some (String.mk tail) else none

/-- The `(version_id, alias, relative_path, sha256)` tuples a product
contributes: items without a `path` are skipped, and with the
disk-image-only filter also items whose path ends in neither `.img` nor
`.qcow2`. -/
def ubuntuProductPairs (p : UbuntuProduct) (only_disk_images : Bool) :
    List (String × String × String × Option String) :=
  p.versions.flatMap fun vv =>
    vv.2.items.filterMap fun ai =>
      match ai.2.path with
      | some rel =>
        if only_disk_images &&
            !(endsWithSeq rel.data ".img".data || endsWithSeq rel.data ".qcow2".data) then
          none
        else some (vv.1, ai.1, rel, ai.2.sha256)
      | none => none

/-- The product loop of `ubuntu_list`.  `none` models the
`product_metadata.os().unwrap()` panic, which fires exactly when an image is
actually built for a product whose `os` is absent. -/
def ubuntuListGo (base target : String) (odi : Bool) :
    List (String × UbuntuProduct) → Option (List Image)
  | [] => some []
  | np :: rest =>
    if ubuntuResolvedArch np.1 np.2 = some target then
      match np.2.os with
      | some osn =>
        (ubuntuListGo base target odi rest).map fun tail =>
          (ubuntuProductPairs np.2 odi).map (fun q =>
            ubuntuFromMetadata osn (np.2.release.getD "ubuntu")
              (np.2.distro_version.getD "No distro version found") q.1 target
              base q.2.2.1 q.2.2.2 q.2.1) ++ tail
      | none =>
        if ubuntuProductPairs np.2 odi = [] then ubuntuListGo base target odi rest
        else none
    else ubuntuListGo base target odi rest

/-- Pure core of `ubuntu_list`: flatten the decoded catalog for the
requested architecture. -/
def ubuntu_list (catalog : UbuntuCatalog) (base_url_for_paths target_arch : String)
    (only_disk_images : Bool) : Option (List Image) :=
  ubuntuListGo base_url_for_paths target_arch only_disk_images catalog.products

/-- All (product, version, item) triples whose resolved architecture equals
the requested one — the claim's notion, with no condition on the item's
path. -/
def ubuntuArchTriples (catalog : UbuntuCatalog) (target : String) :
    List (String × String × String) :=
  catalog.products.flatMap fun np =>
    if ubuntuResolvedArch np.1 np.2 = some target then
      np.2.versions.flatMap fun vv => vv.2.items.map fun ai => (np.1, vv.1, ai.1)
    else []

/-- The (product, version, item) triples whose resolved architecture equals
the requested one and whose item carries a path surviving the disk-image
filter — the triples that actually yield an image. -/
def ubuntuQualifyingTriples (catalog : UbuntuCatalog) (target : String) (odi : Bool) :
    List (String × String × String) :=
  catalog.products.flatMap fun np =>
    if ubuntuResolvedArch np.1 np.2 = some target then
      (ubuntuProductPairs np.2 odi).map fun q => (np.1, q.1, q.2.1)
    else []

theorem ubuntuListGo_spec (base target : String) (odi : Bool) :
    ∀ (prods : List (String × UbuntuProduct)) (imgs : List Image),
      ubuntuListGo base target odi prods = some imgs →
      imgs.length = (ubuntuQualifyingTriples ⟨prods⟩ target odi).length ∧
      imgs.map (fun i => (i.version, i.image_type, i.arch)) =
        (ubuntuQualifyingTriples ⟨prods⟩ target odi).map (fun t => (t.2.1, t.2.2, target))
  | [], imgs => by
    intro h
    obtain rfl := (Option.some.inj h).symm
    simp [ubuntuQualifyingTriples]
  | np :: rest, imgs => by
    intro h
    simp only [ubuntuListGo] at h
    simp only [ubuntuQualifyingTriples, List.flatMap_cons]
    by_cases hr : ubuntuResolvedArch np.1 np.2 = some target
    · rw [if_pos hr] at h
      rw [if_pos hr]
      rcases hos : np.2.os with _ | osn <;> rw [hos] at h
      · by_cases hp : ubuntuProductPairs np.2 odi = []
        · rw [if_pos hp] at h
          obtain ⟨h₁, h₂⟩ := ubuntuListGo_spec base target odi rest imgs h
          simp only [ubuntuQualifyingTriples] at h₁ h₂
          simp [hp, h₁, h₂]
        · rw [if_neg hp] at h
          exact absurd h (by simp)
      · rcases hrest : ubuntuListGo base target odi rest with _ | tail <;> rw [hrest] at h
        · exact absurd h (by simp)
        simp only [Option.map_some] at h
        obtain rfl := (Option.some.inj h).symm
        obtain ⟨h₁, h₂⟩ := ubuntuListGo_spec base target odi rest tail hrest
        simp only [ubuntuQualifyingTriples] at h₁ h₂
        constructor
        · simp [h₁]
        · simp only [List.map_append, List.map_map, h₂]
          rfl
    · rw [if_neg hr] at h
      rw [if_neg hr]
      obtain ⟨h₁, h₂⟩ := ubuntuListGo_spec base target odi rest imgs h
      simp only [ubuntuQualifyingTriples] at h₁ h₂
      simpa [h₁] using h₂

/-- **C3 counterexample**: a valid catalog with one product (resolved
architecture amd64, os present) holding one version with one item whose
`path` is absent: there is exactly one (product, version, item) triple whose
resolved architecture equals the requested one, yet flattening yields no
image for it. -/
theorem ubuntu_flatten_counterexample :
    ubuntu_list
        ⟨[("p:amd64", ⟨some "amd64", some "ubuntu", none, none, none,
          [("v1", ⟨[("disk1.img", ⟨none, none, none⟩)]⟩)]⟩)]⟩
        "https://base/x/" "amd64" false = some [] ∧
    (ubuntuArchTriples
        ⟨[("p:amd64", ⟨some "amd64", some "ubuntu", none, none, none,
          [("v1", ⟨[("disk1.img", ⟨none, none, none⟩)]⟩)]⟩)]⟩
        "amd64").length = 1 :=
  ⟨by decide, by decide⟩

/-- **C3 (amended)**: when flattening succeeds, it yields exactly one
NormalizedImage per (product, version, item) triple whose resolved
architecture equals the requested one *and whose item carries a path that
survives the disk-image filter*; each image's build version is the version
map's key, its type is the item alias, and its architecture is the requested
one.  Architecture resolution prefers the explicit `Product.arch` and
otherwise falls back to the trailing colon-delimited segment of the product
key when it is a known token. -/
theorem ubuntu_flatten_spec (catalog : UbuntuCatalog) (base target : String) (odi : Bool)
    (imgs : List Image) (h : ubuntu_list catalog base target odi = some imgs) :
    imgs.length = (ubuntuQualifyingTriples catalog target odi).length ∧
    imgs.map (fun i => (i.version, i.image_type, i.arch)) =
      (ubuntuQualifyingTriples catalog target odi).map (fun t => (t.2.1, t.2.2, target)) ∧
    (∀ (name : String) (p : UbuntuProduct) (a : String), p.arch = some a →
      ubuntuResolvedArch name p = some a) ∧
    (∀ (name : String) (p : UbuntuProduct), p.arch = none →
      ubuntuResolvedArch name p =
        (if lastColonSegment name.data = "amd64".data ∨
            lastColonSegment name.data = "arm64".data ∨
            lastColonSegment name.data = "ppc64el".data ∨
            lastColonSegment name.data = "s390x".data
         then some (String.mk (lastColonSegment name.data)) else none)) := by
  obtain ⟨h₁, h₂⟩ := ubuntuListGo_spec base target odi catalog.products imgs h
  refine ⟨?_, ?_, ?_, ?_⟩
  · cases catalog
    exact h₁
  · cases catalog
    exact h₂
  · intro name p a hp
    simp [ubuntuResolvedArch, hp]
  · intro name p hp
    simp [ubuntuResolvedArch, hp]

/-- Witness for C3's amended statement on a one-item catalog with a path. -/
theorem ubuntu_flatten_spec_witness :
    ([ubuntuFromMetadata "ubuntu" "noble" "24.04" "v1" "amd64" "https://base/x/"
        "rel.img" none "disk1.img"].map (fun i => (i.version, i.image_type, i.arch))) =
      (ubuntuQualifyingTriples
        ⟨[("p:amd64", ⟨some "amd64", some "ubuntu", some "noble", none, some "24.04",
          [("v1", ⟨[("disk1.img", ⟨some "rel.img", none, none⟩)]⟩)]⟩)]⟩
        "amd64" false).map (fun t => (t.2.1, t.2.2, "amd64")) :=
  (ubuntu_flatten_spec
    ⟨[("p:amd64", ⟨some "amd64", some "ubuntu", some "noble", none, some "24.04",
      [("v1", ⟨[("disk1.img", ⟨some "rel.img", none, none⟩)]⟩)]⟩)]⟩
    "https://base/x/" "amd64" false
    [ubuntuFromMetadata "ubuntu" "noble" "24.04" "v1" "amd64" "https://base/x/"
      "rel.img" none "disk1.img"]
    (by decide)).2.1

/-! ## Debian selection wizard (`pick_debian_with_hint` in
`src/repositories/debian/mod.rs`)

`choose_one` shows a menu and returns the selected item: the operator's
input is modeled as a list of selection indices consumed in order; an
out-of-range index models cancellation (`None` → "No selection made").
The per-arch candidate fetch is passed as a function. -/

/-- Rust `vec.dedup()`: remove consecutive duplicates. -/
def dedupAdjacent : List String → List String
  | [] => []
  | [x] => [x]
  | x :: y :: rest =>
    if x = y then dedupAdjacent (y :: rest) else x :: dedupAdjacent (y :: rest)

/-- `v.sort(); v.reverse(); v.dedup();` on strings. -/
def sortDescDedup (l : List String) : List String :=
  dedupAdjacent ((List.insertionSort strLe l).reverse)

/-- `v.sort(); v.dedup();` on strings. -/
def sortAscDedup (l : List String) : List String :=
  dedupAdjacent (List.insertionSort strLe l)

/-- The composite artifact label built in step 6 of the wizard. -/
def debianLabelize (i : Image) : String :=
  i.name ++ " | " ++ i.image_type ++ " | " ++ i.version ++ " | " ++ i.arch ++ " | " ++ i.url

/-- Steps 4-6 of `pick_debian_with_hint` (image version, type, artifact),
shared by the hint and no-hint paths. -/
def pickDebianFrom (distro_version : String) (images : List Image)
    (answers : List Nat) : Except String Image :=
  match answers with
  | [] => .error "No selection made"
  | a :: rest =>
    match (sortDescDedup (images.map (fun i => i.version))).get? a with
    | none => .error "No selection made"
    | some image_version =>
      let images2 := images.filter (fun i => i.version = image_version)
      if images2 = [] then
        .error ("No Debian images for distro_version=" ++ distro_version ++
          " and version=" ++ image_version)
      else
        match rest with
        | [] => .error "No selection made"
        | b :: rest2 =>
          match (sortAscDedup (images2.map (fun i => i.image_type))).get? b with
          | none => .error "No selection made"
          | some image_type =>
            let images3 := images2.filter (fun i => i.image_type = image_type)
            if images3 = [] then
              .error ("No Debian images found for distro_version=" ++ distro_version ++
                ", version=" ++ image_version ++ ", type=" ++ image_type)
            else
              match rest2 with
              | [] => .error "No selection made"
              | cidx :: _ =>
                match (images3.map debianLabelize).get? cidx with
                | none => .error "No selection made"
                | some chosen_label =>
                  match images3.find? (fun i => debianLabelize i = chosen_label) with
                  | some img => .ok img
                  | none => .error "selected label must match one candidate"

/-- `pick_debian_with_hint`: architecture prompt, per-arch fetch, then
either the distro-version hint filter or the distro-version prompt, then
the shared tail. -/
def pick_debian_with_hint (codename : String) (hint : Option String)
    (images_for : String → List Image) (answers : List Nat) : Except String Image :=
  match answers with
  | [] => .error "No selection made"
  | a1 :: answers1 =>
    match (["amd64", "arm64"] : List String).get? a1 with
    | none => .error "No selection made"
    | some arch =>
      let images := images_for arch
      if images = [] then
        .error ("No Debian images found for codename=" ++ codename ++ " arch=" ++ arch)
      else
        match hint with
        | some hintv =>
          let images2 := images.filter (fun i => i.distro_version = hintv)
          if images2 = [] then
            .error ("No Debian images found for distro_version=" ++ hintv)
          else pickDebianFrom hintv images2 answers1
        | none =>
          match answers1 with
          | [] => .error "No selection made"
          | a2 :: answers2 =>
            match (sortDescDedup (images.map (fun i => i.distro_version))).get? a2 with
            | none => .error "No selection made"
            | some chosen =>
              let images2 := images.filter (fun i => i.distro_version = chosen)
              if images2 = [] then
                .error ("No Debian images found for distro_version=" ++ chosen)
              else pickDebianFrom chosen images2 answers2

deriving instance DecidableEq for Except

/-- **C9 counterexample**: a Debian wizard run (codename "trixie", hint
distro version "13" detected upstream, operator choosing architecture
"amd64") whose hint filter step empties the candidate list: the resolution
fails, but the error does not carry the architecture value chosen in the
preceding step. -/
theorem wizard_error_counterexample :
    pick_debian_with_hint "trixie" (some "13")
      (fun _ => [⟨"debian", "trixie", "12", "latest", "amd64",
        "https://cloud.debian.org/x.qcow2", none, "genericcloud"⟩])
      [0] =
      Except.error "No Debian images found for distro_version=13" ∧
    containsSeq "No Debian images found for distro_version=13".data "amd64".data = false :=
  ⟨by decide, by decide⟩

/-- **C9 (amended)**: in the Debian wizard, when the initial fetch yields no
candidates the error carries both the codename and the chosen architecture;
when the distro-version hint filter empties the candidate list the
resolution fails with an error that carries the hint value — but not the
previously chosen architecture. -/
theorem wizard_empty_filter_errors :
    (∀ (codename : String) (hint : Option String) (images_for : String → List Image)
        (a1 : Nat) (rest : List Nat) (arch : String),
      (["amd64", "arm64"] : List String).get? a1 = some arch →
      images_for arch = [] →
      pick_debian_with_hint codename hint images_for (a1 :: rest) =
        .error ("No Debian images found for codename=" ++ codename ++ " arch=" ++ arch)) ∧
    (∀ (codename hintv : String) (images_for : String → List Image)
        (a1 : Nat) (rest : List Nat) (arch : String),
      (["amd64", "arm64"] : List String).get? a1 = some arch →
      images_for arch ≠ [] →
      (images_for arch).filter (fun i => i.distro_version = hintv) = [] →
      pick_debian_with_hint codename (some hintv) images_for (a1 :: rest) =
        .error ("No Debian images found for distro_version=" ++ hintv) ∧
      containsSeq ("No Debian images found for distro_version=" ++ hintv).data
        hintv.data = true) := by
  constructor
  · intro codename hint images_for a1 rest arch ha hempty
    simp only [pick_debian_with_hint, ha, hempty]
    simp
  · intro codename hintv images_for a1 rest arch ha hne hfil
    constructor
    · simp only [pick_debian_with_hint, ha, hfil]
      simp [hne]
    · simp only [containsSeq, decide_eq_true_eq]
      refine ⟨"No Debian images found for distro_version=".data, [], ?_⟩
      simp

/-- Witness for C9's amended statement at the counterexample input. -/
theorem wizard_empty_filter_errors_witness :
    pick_debian_with_hint "trixie" (some "13")
      (fun _ => [⟨"debian", "trixie", "12", "latest", "amd64",
        "https://cloud.debian.org/x.qcow2", none, "genericcloud"⟩])
      [0] =
      Except.error ("No Debian images found for distro_version=" ++ "13") ∧
    containsSeq ("No Debian images found for distro_version=" ++ "13").data
      "13".data = true :=
  wizard_empty_filter_errors.2 "trixie" "13"
    (fun _ => [⟨"debian", "trixie", "12", "latest", "amd64",
      "https://cloud.debian.org/x.qcow2", none, "genericcloud"⟩])
    0 [] "amd64" (by decide) (by decide) (by decide)

/-! ## SHA-512 (the `sha2` crate's `Sha512`, FIPS 180-4), on `Nat` words
reduced mod `2 ^ 64`.  The round constants are the fractional parts of the
cube roots of the first 80 primes and the initial state the fractional
parts of the square roots of the first 8 primes, computed here by integer
root extraction. -/

def add64 (a b : Nat) : Nat := (a + b) % 2 ^ 64

def rotr64 (x n : Nat) : Nat := (x >>> n) ||| ((x <<< (64 - n)) % 2 ^ 64)

def not64 (x : Nat) : Nat := x ^^^ (2 ^ 64 - 1)

def bigS0 (x : Nat) : Nat := rotr64 x 28 ^^^ rotr64 x 34 ^^^ rotr64 x 39

def bigS1 (x : Nat) : Nat := rotr64 x 14 ^^^ rotr64 x 18 ^^^ rotr64 x 41

def smallS0 (x : Nat) : Nat := rotr64 x 1 ^^^ rotr64 x 8 ^^^ (x >>> 7)

def smallS1 (x : Nat) : Nat := rotr64 x 19 ^^^ rotr64 x 61 ^^^ (x >>> 6)

def ch64 (x y z : Nat) : Nat := (x &&& y) ^^^ (not64 x &&& z)

def maj64 (x y z : Nat) : Nat := (x &&& y) ^^^ (x &&& z) ^^^ (y &&& z)

def isPrimeNat (n : Nat) : Bool :=
  2 ≤ n && (List.range n).all (fun d => d < 2 || ¬ (n % d = 0))

def firstPrimes (k : Nat) : List Nat :=
  ((List.range 500).filter isPrimeNat).take k

/-- Binary search for the integer k-th root (largest `r` with `r ^ k ≤ x`),
with explicit fuel so the kernel can evaluate it. -/
def nthRootAux (k x : Nat) : Nat → Nat → Nat → Nat
  | 0, lo, _ => lo
  | fuel + 1, lo, hi =>
    let mid := (lo + hi) / 2
    if mid = lo then lo
    else if mid ^ k ≤ x then nthRootAux k x fuel mid hi
    else nthRootAux k x fuel lo mid

def nthRootFloor (k x : Nat) : Nat := nthRootAux k x 260 0 (x + 1)

def sha512K : List Nat :=
  (firstPrimes 80).map (fun p => nthRootFloor 3 (p * 2 ^ 192) % 2 ^ 64)

def sha512H0 : List Nat :=
  (firstPrimes 8).map (fun p => nthRootFloor 2 (p * 2 ^ 128) % 2 ^ 64)

/-- Split into chunks of `n` bytes, fuel-driven for kernel evaluation. -/
def chunkify (n : Nat) : Nat → List Nat → List (List Nat)
  | 0, _ => []
  | _, [] => []
  | fuel + 1, l => l.take n :: chunkify n fuel (l.drop n)

def bytesToBE (bs : List Nat) : Nat := bs.foldl (fun acc b => acc * 256 + b) 0

def natToBytesBE (n v : Nat) : List Nat :=
  (List.range n).map (fun i => v / 256 ^ (n - 1 - i) % 256)

/-- FIPS 180-4 padding: append `0x80`, zeros to 112 mod 128, then the
16-byte big-endian bit length. -/
def sha512Pad (msg : List Nat) : List Nat :=
  let len := msg.length
  let k := (239 - (len % 128)) % 128
  msg ++ [0x80] ++ List.replicate k 0 ++ natToBytesBE 16 (len * 8)

/-- Extend the 16 block words to the 80-entry message schedule. -/
def sha512Schedule (w16 : List Nat) : List Nat :=
  (List.range 64).foldl
    (fun w i =>
      w ++ [add64 (add64 (smallS1 (w.getD (i + 14) 0)) (w.getD (i + 9) 0))
        (add64 (smallS0 (w.getD (i + 1) 0)) (w.getD i 0))])
    w16

/-- One SHA-512 compression of a 128-byte block into the running state
(8 words). -/
def sha512Compress (H : List Nat) (block : List Nat) : List Nat :=
  let w := sha512Schedule ((chunkify 8 block.length block).map bytesToBE)
  let st := (List.range 80).foldl
    (fun st t =>
      let a := st.getD 0 0
      let b := st.getD 1 0
      let c := st.getD 2 0
      let d := st.getD 3 0
      let e := st.getD 4 0
      let f := st.getD 5 0
      let g := st.getD 6 0
      let h := st.getD 7 0
      let T1 := add64 (add64 (add64 h (bigS1 e)) (add64 (ch64 e f g) (sha512K.getD t 0)))
        (w.getD t 0)
      let T2 := add64 (bigS0 a) (maj64 a b c)
      [add64 T1 T2, a, b, c, add64 d T1, e, f, g])
    H
  List.zipWith add64 H st

def sha512Words (msg : List Nat) : List Nat :=
  (chunkify 128 (sha512Pad msg).length (sha512Pad msg)).foldl sha512Compress sha512H0

def hexDigitCh (n : Nat) : Char :=
  if n < 10 then Char.ofNat (48 + n) else Char.ofNat (87 + n)

def wordToHex (v : Nat) : List Char :=
  (List.range 16).map (fun i => hexDigitCh (v / 16 ^ (15 - i) % 16))

/-- Lowercase hex encoding of the SHA-512 digest of a byte sequence
(`hex::encode(hasher.finalize())`). -/
def sha512Hex (msg : List Nat) : String :=
  String.mk ((sha512Words msg).flatMap wordToHex)

/-- The FIPS 180-4 test vector for SHA-512 of `"abc"`, validating the
constant derivation and the compression pipeline. -/
theorem sha512_abc_test_vector :
    sha512Hex [0x61, 0x62, 0x63] =
      "ddaf35a193617abacc417349ae20413112e6fa4e89a97ea20a9eeee64b55d39a2192992a274fc1a836ba3c23a3feebbd454d4423643ce80e2a9ac94fa54ca49f" := by
  decide

/-! ## Download operations (`src/helpers/image_resolver/mod.rs` and
`src/debian/mod.rs`) -/

/-- The HTTP response `download_file` consumes: an optional Content-Length,
the successfully received body chunks, and an optional mid-stream failure
occurring after those chunks. -/
structure HttpResponse where
  contentLength : Option Nat
  chunks : List (List Nat)
  streamErr : Option String
deriving DecidableEq, Repr

/-- Observable outcome of `download_file`: the returned message or error,
whether/which file was created in the working directory, and the bytes
written to it. -/
structure DownloadOutcome where
  result : Except String String
  fileCreated : Option String
  bytesWritten : List Nat
deriving DecidableEq, Repr

/-- `url.rsplit('/').find(|s| !s.is_empty()).unwrap_or("download")`. -/
def urlFilename (url : String) : String :=
  match (splitOnChar '/' url.data).reverse.find? (fun s => s ≠ []) with
  | some s => String.mk s
  | none => "download"

/-- `download_file` from `src/helpers/image_resolver/mod.rs`.  The progress
bar and the current-directory lookup are display-only and modeled away (the
file path is reported by its filename).  Note the function receives only
the URL: it never sees, computes or compares any checksum. -/
def download_file (url : String) (send : Except String HttpResponse) : DownloadOutcome :=
  match send with
  | .error e => ⟨.error ("Failed to GET from '" ++ url ++ "': " ++ e), none, []⟩
  | .ok res =>
    match res.contentLength with
    | none => ⟨.error ("Failed to get content length from '" ++ url ++ "'"), none, []⟩
    | some _ =>
      let filename := urlFilename url
      let written := res.chunks.flatten
      match res.streamErr with
      | some e => ⟨.error ("Error while downloading file: " ++ e), some filename, written⟩
      | none => ⟨.ok ("Downloaded " ++ url ++ " to " ++ filename), some filename, written⟩

/-- `download_and_verify` from `src/debian/mod.rs`, given the fetched bytes:
hash with SHA-512 unconditionally, compare against the lowercased expected
digest, write the bytes to the caller's path only on match (the second
component is the written content).  Rust's `to_lowercase` agrees with ASCII
lowercasing on digest strings. -/
def download_and_verify (bytes : List Nat) (expected_sha512 : String) :
    Except String Unit × Option (List Nat) :=
  let got := sha512Hex bytes
  if got ≠ asciiLowerStr expected_sha512 then
    (.error ("SHA256 mismatch: expected " ++ expected_sha512 ++ ", got " ++ got), none)
  else (.ok (), some bytes)

/-- **C10**: `download_file` fails before creating the file or writing any
bytes whenever the response carries no Content-Length, even when the
request itself succeeded; and a successful download implies the server
advertised a content length. -/
theorem download_content_length_guard :
    (∀ (url : String) (res : HttpResponse), res.contentLength = none →
      download_file url (.ok res) =
        ⟨.error ("Failed to get content length from '" ++ url ++ "'"), none, []⟩) ∧
    (∀ (url : String) (send : Except String HttpResponse) (msg : String),
      (download_file url send).result = .ok msg →
      ∃ res len, send = .ok res ∧ res.contentLength = some len) := by
  constructor
  · intro url res h
    simp [download_file, h]
  · intro url send msg h
    match send with
    | .error e => simp [download_file] at h
    | .ok res =>
      refine ⟨res, ?_⟩
      match hcl : res.contentLength with
      | none => simp [download_file, hcl] at h
      | some len => exact ⟨len, rfl, rfl⟩

/-- Witness for C10 at a concrete response without a Content-Length. -/
theorem download_content_length_guard_witness :
    download_file "https://x/a.qcow2" (.ok ⟨none, [[1, 2]], none⟩) =
      ⟨.error "Failed to get content length from 'https://x/a.qcow2'", none, []⟩ := by
  have h := download_content_length_guard.1 "https://x/a.qcow2" ⟨none, [[1, 2]], none⟩ rfl
  exact h.trans (by decide)

theorem splitOnChar_ne_nil (sep : Char) : ∀ l : List Char, splitOnChar sep l ≠ []
  | [] => by simp [splitOnChar]
  | c :: cs => by
    simp only [splitOnChar]
    rcases h : splitOnChar sep cs with _ | ⟨x, xs⟩
    · simp
    · by_cases hc : c = sep <;> simp [hc]

theorem splitOnChar_no_sep {sep : Char} : ∀ {b : List Char}, sep ∉ b →
    splitOnChar sep b = [b]
  | [], _ => rfl
  | c :: cs, h => by
    have hc : c ≠ sep := fun hx => h (hx ▸ List.mem_cons_self c cs)
    have hcs : sep ∉ cs := fun hx => h (List.mem_cons_of_mem c hx)
    simp only [splitOnChar, splitOnChar_no_sep hcs]
    simp [hc]

theorem splitOnChar_append_sep {sep : Char} : ∀ (a b : List Char),
    splitOnChar sep (a ++ sep :: b) = splitOnChar sep a ++ splitOnChar sep b
  | [], b => by
    simp only [List.nil_append, splitOnChar]
    rcases h : splitOnChar sep b with _ | ⟨x, xs⟩
    · exact absurd h (splitOnChar_ne_nil sep b)
    · simp
  | c :: a, b => by
    have ih := @splitOnChar_append_sep sep a b
    rcases h : splitOnChar sep a with _ | ⟨x, xs⟩
    · exact absurd h (splitOnChar_ne_nil sep a)
    · rw [h] at ih
      simp only [List.cons_append, splitOnChar, List.append_eq]
      rw [ih, h]
      by_cases hc : c = sep <;> simp [hc]

/-- **C1 counterexample**: a chosen artifact whose recorded Checksum
(sha512, all zeros) does not match the fetched bytes; `download_file` — the
operation `main` runs on the chosen artifact — nevertheless succeeds and
persists the bytes under the working directory, so the download operation
does not succeed iff the digest matches, and bytes are persisted without a
match. -/
theorem download_no_verification_counterexample :
    (Image.checksum ⟨"debian", "bookworm", "12", "latest", "amd64", "https://x/a.qcow2",
        some ⟨ChecksumKind.sha512, String.mk (List.replicate 128 '0')⟩, "genericcloud"⟩ =
      some ⟨ChecksumKind.sha512, String.mk (List.replicate 128 '0')⟩) ∧
    (Image.url ⟨"debian", "bookworm", "12", "latest", "amd64", "https://x/a.qcow2",
        some ⟨ChecksumKind.sha512, String.mk (List.replicate 128 '0')⟩, "genericcloud"⟩ =
      "https://x/a.qcow2") ∧
    sha512Hex [97] ≠ asciiLowerStr (String.mk (List.replicate 128 '0')) ∧
    download_file "https://x/a.qcow2" (.ok ⟨some 1, [[97]], none⟩) =
      ⟨.ok "Downloaded https://x/a.qcow2 to a.qcow2", some "a.qcow2", [97]⟩ :=
  ⟨by decide, by decide, by decide, by decide⟩

/-- **C1 (amended)**: `download_file`, the operation applied to the chosen
artifact, performs no digest computation: given a successful response with
a content length it succeeds and persists all fetched bytes under the
working directory using the URL's trailing non-empty path segment as
filename (literal "download" when there is none), regardless of the
artifact's checksum, which it never receives.  The separate Debian
`download_and_verify` helper computes SHA-512 of the fetched bytes,
succeeds iff the lowercase hex digest equals the lowercased expected value,
writes the bytes only on match, and on mismatch fails with an error naming
both the expected and the computed value. -/
theorem download_and_verify_spec :
    (∀ (url : String) (cl : Nat) (chunks : List (List Nat)),
      download_file url (.ok ⟨some cl, chunks, none⟩) =
        ⟨.ok ("Downloaded " ++ url ++ " to " ++ urlFilename url),
          some (urlFilename url), chunks.flatten⟩) ∧
    (∀ a b : List Char, b ≠ [] → '/' ∉ b →
      urlFilename (String.mk (a ++ '/' :: b)) = String.mk b) ∧
    urlFilename "" = "download" ∧ urlFilename "///" = "download" ∧
    (∀ (bytes : List Nat) (expected : String),
      ((download_and_verify bytes expected).1 = .ok () ↔
        sha512Hex bytes = asciiLowerStr expected) ∧
      (sha512Hex bytes = asciiLowerStr expected →
        (download_and_verify bytes expected).2 = some bytes) ∧
      (sha512Hex bytes ≠ asciiLowerStr expected →
        (download_and_verify bytes expected).1 =
          .error ("SHA256 mismatch: expected " ++ expected ++ ", got " ++ sha512Hex bytes) ∧
        (download_and_verify bytes expected).2 = none)) := by
  refine ⟨?_, ?_, by decide, by decide, ?_⟩
  · intro url cl chunks
    rfl
  · intro a b hb hmem
    unfold urlFilename
    rw [splitOnChar_append_sep, splitOnChar_no_sep hmem]
    rw [List.reverse_append]
    simp only [List.reverse_cons, List.reverse_nil, List.nil_append, List.singleton_append]
    rw [List.find?_cons_of_pos _ (by simpa using hb)]
  · intro bytes expected
    by_cases h : sha512Hex bytes = asciiLowerStr expected
    · refine ⟨by simp [download_and_verify, h], fun _ => by simp [download_and_verify, h],
        fun hc => absurd h hc⟩
    · refine ⟨?_, fun hc => absurd hc h, fun _ => ⟨by simp [download_and_verify, h], by
        simp [download_and_verify, h]⟩⟩
      simp [download_and_verify, h]

/-- Witness for C1's amended statement: a mismatching digest is rejected
with an error naming both values, and the trailing-segment filename rule at
a concrete URL. -/
theorem download_and_verify_spec_witness :
    urlFilename (String.mk ("https://x".data ++ '/' :: "a.qcow2".data)) =
      String.mk "a.qcow2".data ∧
    ((download_and_verify [97] "00").1 =
      .error ("SHA256 mismatch: expected " ++ "00" ++ ", got " ++ sha512Hex [97]) ∧
      (download_and_verify [97] "00").2 = none) :=
  ⟨download_and_verify_spec.2.1 "https://x".data "a.qcow2".data (by decide) (by decide),
    (download_and_verify_spec.2.2.2.2 [97] "00").2.2 (by decide)⟩
